import Mathlib

/-!
Verification of the predeposits-data repository: event decoding of raw
Ethereum logs (DepositProcessed events and ERC-4626 vault events),
balance aggregation and CSV report building.

Raw 32-byte topic words and ABI data are modelled as byte sequences
(lists of naturals); JavaScript BigInt values are modelled as Nat / Int
(arbitrary precision, exactly as BigInt); JavaScript strings are Lean
strings.  The EIP-55 checksumming performed by ethers.getAddress is an
external library primitive (keccak-based); it is abstracted as a
function parameter from the 20 address bytes to the checksummed text,
since the repository code only ever applies it to the byte slice it
extracts.
-/

namespace PredepositsData

/-- Unsigned big-endian integer value of a byte sequence: the value
JavaScript BigInt gives to the 0x-prefixed hex rendering of the bytes. -/
def beNat (bs : List Nat) : Nat := bs.foldl (fun a b => a * 256 + b) 0

/-- Model of the hex-text operation slice(-40) on a topic word: the
low-order 20 bytes, or the whole word when it is shorter than 20 bytes. -/
def low20 (t : List Nat) : List Nat := t.drop (t.length - 20)

/-- Fuel-driven worker for decimal digit extraction (structural recursion
so that concrete witnesses evaluate inside the kernel). -/
def natDigitsGo : Nat → Nat → List Nat
  | 0, _ => []
  | fuel + 1, n => if n < 10 then [n] else natDigitsGo fuel (n / 10) ++ [n % 10]

/-- Decimal digits of a natural number, most significant first; model of
the radix-10 BigInt-to-string conversion used when rendering CSV fields. -/
def natDigits (n : Nat) : List Nat := natDigitsGo (n + 1) n

/-- The character of a single decimal digit. -/
def digitChar (d : Nat) : Char := Char.ofNat (48 + d)

/-- Decimal text of a natural number (model of BigInt.toString on a
non-negative value). -/
def natDecimal (n : Nat) : String := String.mk ((natDigits n).map digitChar)

/-- Decimal text of an integer (model of BigInt.toString). -/
def intDecimal (i : Int) : String :=
  if i < 0 then "-" ++ natDecimal i.natAbs else natDecimal i.natAbs

/-- Base-10 value of a digit list, most significant first. -/
def digitsVal (ds : List Nat) : Nat := ds.foldl (fun a d => a * 10 + d) 0

/-- ASCII lower-casing of a string, the model of
String.prototype.toLowerCase on the address alphabet. -/
def toLowerS (s : String) : String := String.mk (s.data.map Char.toLower)

/-! ### Raw logs

A raw log as delivered by eth_getLogs: the topic words and the data
bytes, plus the block number and transaction hash used by the vault
script. -/

/-- A raw Ethereum log. -/
structure RawLog where
  topics : List (List Nat)
  data : List Nat
  blockNumber : Nat
  transactionHash : String
  deriving Repr, DecidableEq

/-! ### The DepositProcessed decoder (fetch_krates_events script) -/

/-- A decoded DepositProcessed record: asset, user, amount. -/
structure DepositRecord where
  asset : String
  user : String
  amount : Nat
  deriving Repr, DecidableEq

/-- Decoding of one raw log by the krates formatEvents loop body:
requires at least four topics, reads asset and user from the low-order
20 bytes of topics 1 and 2 (ethers.getAddress is the abstracted
checksum `cs`, which throws - skipping the log - unless its argument is
exactly 20 bytes), and the amount as the big-endian value of topic 3
(BigInt parsing throws - skipping the log - on an empty hex string). -/
def krDecodeLog (cs : List Nat → String) (log : RawLog) : Option DepositRecord :=
  if 4 ≤ log.topics.length then
    if (low20 (log.topics.getD 1 [])).length = 20 ∧
        (low20 (log.topics.getD 2 [])).length = 20 ∧
        log.topics.getD 3 [] ≠ [] then
      some { asset := cs (low20 (log.topics.getD 1 []))
             user := cs (low20 (log.topics.getD 2 []))
             amount := beNat (log.topics.getD 3 []) }
    else none
  else none

/-- The krates formatEvents function: decode each log independently,
keeping input order, skipping logs that fail to decode. -/
def krFormatEvents (cs : List Nat → String) (logs : List RawLog) : List DepositRecord :=
  logs.filterMap (krDecodeLog cs)

/-! ### Helper lemmas -/

theorem getD_mem_of_lt {α : Type} {l : List α} {i : Nat} {d : α} (h : i < l.length) :
    l.getD i d ∈ l := by
  rw [List.getD_eq_getElem?_getD, List.getElem?_eq_getElem h]
  exact List.getElem_mem h

theorem low20_length_of_32 {t : List Nat} (h : t.length = 32) : (low20 t).length = 20 := by
  simp [low20, h]

/-- C1: for every raw log whose topics list has at least 4 entries (each
topic being a 32-byte word), the DepositProcessed decoder outputs exactly
one record, with asset the checksummed address of the low-order 20 bytes
of topics[1], user the checksummed address of the low-order 20 bytes of
topics[2], and amount the unsigned big-endian value of the indexed topic
topics[3]; a raw log with fewer than 4 topics yields no record and no
error. -/
theorem c1_deposit_processed_decoder (cs : List Nat → String) (log : RawLog)
    (rest : List RawLog) (hwf : ∀ t ∈ log.topics, t.length = 32) :
    (4 ≤ log.topics.length →
      krFormatEvents cs (log :: rest) =
        { asset := cs (low20 (log.topics.getD 1 []))
          user := cs (low20 (log.topics.getD 2 []))
          amount := beNat (log.topics.getD 3 []) } :: krFormatEvents cs rest) ∧
    (log.topics.length < 4 →
      krFormatEvents cs (log :: rest) = krFormatEvents cs rest) := by
  constructor
  · intro h4
    have h1 : log.topics.getD 1 [] ∈ log.topics := getD_mem_of_lt (by omega)
    have h2 : log.topics.getD 2 [] ∈ log.topics := getD_mem_of_lt (by omega)
    have h3 : log.topics.getD 3 [] ∈ log.topics := getD_mem_of_lt (by omega)
    have hne : log.topics.getD 3 [] ≠ [] := by
      have := hwf _ h3
      intro hc
      rw [hc] at this
      simp at this
    rw [List.getD_eq_getElem?_getD] at hne
    simp only [krFormatEvents, List.filterMap_cons, krDecodeLog, if_pos h4,
      low20_length_of_32 (hwf _ h1), low20_length_of_32 (hwf _ h2)]
    simp [hne]
  · intro hlt
    simp only [krFormatEvents, List.filterMap_cons, krDecodeLog]
    rw [if_neg (by omega)]

/-- 32-byte big-endian rendering of a natural number, used to build
concrete topic words and the event-signature hash constants. -/
def bytes32OfNat (n : Nat) : List Nat :=
  (List.range 32).map fun i => n / 256 ^ (31 - i) % 256

/-- A concrete stand-in for the abstract checksum function in witnesses:
some injective-enough nonempty rendering of the 20 address bytes. -/
def sampleCs : List Nat → String := fun bs => natDecimal (beNat bs)

theorem natDigits_ne_nil (n : Nat) : natDigits n ≠ [] := by
  unfold natDigits natDigitsGo
  by_cases h : n < 10 <;> simp [h]

theorem natDecimal_ne_empty (n : Nat) : natDecimal n ≠ "" := by
  unfold natDecimal
  intro h
  have := congrArg String.data h
  simp at this
  exact natDigits_ne_nil n this

theorem sampleCs_ne_empty (bs : List Nat) : sampleCs bs ≠ "" :=
  natDecimal_ne_empty _

/-- Witness for C1 at a concrete four-topic log and a concrete
one-topic log. -/
theorem c1_witness :
    krFormatEvents sampleCs
        [{ topics := [bytes32OfNat 0, bytes32OfNat 7, bytes32OfNat 9, bytes32OfNat 1000]
           data := [], blockNumber := 0, transactionHash := "" }] =
      [{ asset := sampleCs (low20 (bytes32OfNat 7)), user := sampleCs (low20 (bytes32OfNat 9))
         amount := beNat (bytes32OfNat 1000) }] ∧
    krFormatEvents sampleCs
        [{ topics := [bytes32OfNat 0], data := [], blockNumber := 0, transactionHash := "" }] = [] := by
  constructor
  · have h := (c1_deposit_processed_decoder sampleCs
      { topics := [bytes32OfNat 0, bytes32OfNat 7, bytes32OfNat 9, bytes32OfNat 1000]
        data := [], blockNumber := 0, transactionHash := "" } [] (by decide)).1 (by decide)
    simpa using h
  · have h := (c1_deposit_processed_decoder sampleCs
      { topics := [bytes32OfNat 0], data := [], blockNumber := 0, transactionHash := "" }
      [] (by decide)).2 (by decide)
    simpa using h

/-! ### The vault event decoder (fetch_vault_balance script)

The three supported signature hashes are the keccak-256 values that
ethers.id computes for the Transfer, ERC-4626 Deposit and ERC-4626
Withdraw signatures. -/

/-- ethers.id of Transfer(address,address,uint256). -/
def transferSig : List Nat :=
  bytes32OfNat 0xddf252ad1be2c89b69c2b068fc378daa952ba7f163c4a11628f55a4df523b3ef

/-- ethers.id of Deposit(address,address,uint256,uint256). -/
def depositSig : List Nat :=
  bytes32OfNat 0xdcbc1c05240f31ff3ad067ef1ee35ce4997762752e3a095284754544f4c709d7

/-- ethers.id of Withdraw(address,address,address,uint256,uint256). -/
def withdrawSig : List Nat :=
  bytes32OfNat 0xfbde797d201c681b91056529119e0b02407c7bb96a4a2c75c01fc9667232c8db

/-- The event kind recorded in a formatted vault event. -/
inductive EvType where
  | shareTransfer
  | deposit
  | withdraw
  deriving Repr, DecidableEq

/-- A formatted vault event, as built by the vault formatEvents loop. -/
structure FormattedVaultEvent where
  blockNumber : Nat
  transactionHash : String
  eventType : EvType
  caller : String
  owner : String
  receiver : String
  assets : Nat
  shares : Nat
  balanceChange : Int
  deriving Repr, DecidableEq

/-- The final filter of the vault formatEvents loop body: only events
with a truthy caller, owner or receiver are kept. -/
def keepMeaningful (fe : FormattedVaultEvent) : Bool :=
  fe.caller ≠ "" || fe.owner ≠ "" || fe.receiver ≠ ""

/-- Decoding of one raw log by the vault formatEvents loop body.  The
signature-hash table decides the branch; an unknown topics[0] yields no
event.  Guards mirror the points where the source throws and the
try/catch skips the log: address extraction needs the topic word to
exist with at least 20 bytes, BigInt hex parsing needs a nonempty hex
string (so the second 32-byte data segment must be nonempty for
Deposit/Withdraw, and the data itself nonempty for Transfer). -/
def vaultDecodeLog (cs : List Nat → String) (log : RawLog) : Option FormattedVaultEvent :=
  let fe? : Option FormattedVaultEvent :=
    if log.topics.getD 0 [] = transferSig then
      if 3 ≤ log.topics.length ∧ (low20 (log.topics.getD 1 [])).length = 20 ∧
          (low20 (log.topics.getD 2 [])).length = 20 ∧ log.data ≠ [] then
        some { blockNumber := log.blockNumber, transactionHash := log.transactionHash
               eventType := .shareTransfer
               caller := cs (low20 (log.topics.getD 1 []))
               owner := ""
               receiver := cs (low20 (log.topics.getD 2 []))
               assets := 0, shares := beNat log.data, balanceChange := 0 }
      else none
    else if log.topics.getD 0 [] = depositSig then
      if 3 ≤ log.topics.length ∧ (low20 (log.topics.getD 1 [])).length = 20 ∧
          (low20 (log.topics.getD 2 [])).length = 20 ∧ 32 < log.data.length then
        some { blockNumber := log.blockNumber, transactionHash := log.transactionHash
               eventType := .deposit
               caller := cs (low20 (log.topics.getD 1 []))
               owner := cs (low20 (log.topics.getD 2 []))
               receiver := cs (low20 (log.topics.getD 2 []))
               assets := beNat (log.data.take 32)
               shares := beNat ((log.data.drop 32).take 32)
               balanceChange := (beNat (log.data.take 32) : Int) }
      else none
    else if log.topics.getD 0 [] = withdrawSig then
      if 4 ≤ log.topics.length ∧ (low20 (log.topics.getD 1 [])).length = 20 ∧
          (low20 (log.topics.getD 2 [])).length = 20 ∧
          (low20 (log.topics.getD 3 [])).length = 20 ∧ 32 < log.data.length then
        some { blockNumber := log.blockNumber, transactionHash := log.transactionHash
               eventType := .withdraw
               caller := cs (low20 (log.topics.getD 1 []))
               owner := cs (low20 (log.topics.getD 3 []))
               receiver := cs (low20 (log.topics.getD 2 []))
               assets := beNat (log.data.take 32)
               shares := beNat ((log.data.drop 32).take 32)
               balanceChange := -(beNat (log.data.take 32) : Int) }
      else none
    else none
  match fe? with
  | none => none
  | some fe => if keepMeaningful fe then some fe else none

/-- Comparator of the final sort of formatEvents: ascending block number. -/
def blockLe (a b : FormattedVaultEvent) : Prop := a.blockNumber ≤ b.blockNumber

instance : DecidableRel blockLe := fun a b => Nat.decLe a.blockNumber b.blockNumber

instance : IsTotal FormattedVaultEvent blockLe :=
  ⟨fun a b => Nat.le_total a.blockNumber b.blockNumber⟩

instance : IsTrans FormattedVaultEvent blockLe :=
  ⟨fun _ _ _ h1 h2 => Nat.le_trans h1 h2⟩

/-- The vault formatEvents function: decode each log independently in
input order, skipping failures, then sort by block number. -/
def vaultFormatEvents (cs : List Nat → String) (logs : List RawLog) : List FormattedVaultEvent :=
  List.insertionSort blockLe (logs.filterMap (vaultDecodeLog cs))

theorem transferSig_ne_depositSig : transferSig ≠ depositSig := by decide

theorem transferSig_ne_withdrawSig : transferSig ≠ withdrawSig := by decide

theorem depositSig_ne_withdrawSig : depositSig ≠ withdrawSig := by decide

/-- C3: for every well-formed raw vault log of a supported kind, decoding
yields exactly one event: a Deposit log gives caller from topics[1],
owner from topics[2], receiver equal to owner, assets from the first
32-byte data segment, shares from the second, and balanceChange equal to
plus assets; a Withdraw log gives caller, receiver, owner from
topics[1..3], assets and shares from the two data segments in that
order, and balanceChange equal to minus assets; a Transfer log is
reclassified to ShareTransfer with balanceChange zero. -/
theorem c3_vault_event_decoding (cs : List Nat → String) (log : RawLog)
    (hwf : ∀ t ∈ log.topics, t.length = 32) (hcs : ∀ bs, cs bs ≠ "") :
    (log.topics.getD 0 [] = depositSig → log.topics.length = 3 → log.data.length = 64 →
      vaultFormatEvents cs [log] =
        [{ blockNumber := log.blockNumber, transactionHash := log.transactionHash
           eventType := .deposit
           caller := cs (low20 (log.topics.getD 1 []))
           owner := cs (low20 (log.topics.getD 2 []))
           receiver := cs (low20 (log.topics.getD 2 []))
           assets := beNat (log.data.take 32)
           shares := beNat ((log.data.drop 32).take 32)
           balanceChange := (beNat (log.data.take 32) : Int) }]) ∧
    (log.topics.getD 0 [] = withdrawSig → log.topics.length = 4 → log.data.length = 64 →
      vaultFormatEvents cs [log] =
        [{ blockNumber := log.blockNumber, transactionHash := log.transactionHash
           eventType := .withdraw
           caller := cs (low20 (log.topics.getD 1 []))
           owner := cs (low20 (log.topics.getD 3 []))
           receiver := cs (low20 (log.topics.getD 2 []))
           assets := beNat (log.data.take 32)
           shares := beNat ((log.data.drop 32).take 32)
           balanceChange := -(beNat (log.data.take 32) : Int) }]) ∧
    (log.topics.getD 0 [] = transferSig → log.topics.length = 3 → log.data.length = 32 →
      vaultFormatEvents cs [log] =
        [{ blockNumber := log.blockNumber, transactionHash := log.transactionHash
           eventType := .shareTransfer
           caller := cs (low20 (log.topics.getD 1 []))
           owner := ""
           receiver := cs (low20 (log.topics.getD 2 []))
           assets := 0, shares := beNat log.data, balanceChange := 0 }]) := by
  refine ⟨?_, ?_, ?_⟩
  · intro h0 hlen hdata
    have h1 : log.topics.getD 1 [] ∈ log.topics := getD_mem_of_lt (by omega)
    have h2 : log.topics.getD 2 [] ∈ log.topics := getD_mem_of_lt (by omega)
    simp only [vaultFormatEvents, List.filterMap_cons, List.filterMap_nil, vaultDecodeLog, h0]
    rw [if_neg (fun hc => transferSig_ne_depositSig hc.symm)]
    rw [if_pos trivial]
    rw [if_pos ⟨by omega, low20_length_of_32 (hwf _ h1), low20_length_of_32 (hwf _ h2), by omega⟩]
    simp only [keepMeaningful, hcs, ne_eq]
    simp [hcs _]
  · intro h0 hlen hdata
    have h1 : log.topics.getD 1 [] ∈ log.topics := getD_mem_of_lt (by omega)
    have h2 : log.topics.getD 2 [] ∈ log.topics := getD_mem_of_lt (by omega)
    have h3 : log.topics.getD 3 [] ∈ log.topics := getD_mem_of_lt (by omega)
    simp only [vaultFormatEvents, List.filterMap_cons, List.filterMap_nil, vaultDecodeLog, h0]
    rw [if_neg (fun hc => transferSig_ne_withdrawSig hc.symm)]
    rw [if_neg (fun hc => depositSig_ne_withdrawSig hc.symm)]
    rw [if_pos trivial]
    rw [if_pos ⟨by omega, low20_length_of_32 (hwf _ h1), low20_length_of_32 (hwf _ h2),
      low20_length_of_32 (hwf _ h3), by omega⟩]
    simp [keepMeaningful, hcs _]
  · intro h0 hlen hdata
    have h1 : log.topics.getD 1 [] ∈ log.topics := getD_mem_of_lt (by omega)
    have h2 : log.topics.getD 2 [] ∈ log.topics := getD_mem_of_lt (by omega)
    have hdne : log.data ≠ [] := by
      intro hc
      rw [hc] at hdata
      simp at hdata
    simp only [vaultFormatEvents, List.filterMap_cons, List.filterMap_nil, vaultDecodeLog, h0]
    rw [if_pos trivial]
    rw [if_pos ⟨by omega, low20_length_of_32 (hwf _ h1), low20_length_of_32 (hwf _ h2), hdne⟩]
    simp [keepMeaningful, hcs _]

/-- Witness for C3: a concrete Deposit log decodes to the expected
single formatted event. -/
theorem c3_witness :
    vaultFormatEvents sampleCs
        [{ topics := [depositSig, bytes32OfNat 3, bytes32OfNat 5]
           data := bytes32OfNat 100 ++ bytes32OfNat 90
           blockNumber := 11, transactionHash := "0xt" }] =
      [{ blockNumber := 11, transactionHash := "0xt"
         eventType := .deposit
         caller := sampleCs (low20 (bytes32OfNat 3))
         owner := sampleCs (low20 (bytes32OfNat 5))
         receiver := sampleCs (low20 (bytes32OfNat 5))
         assets := 100, shares := 90, balanceChange := 100 }] := by
  have h := (c3_vault_event_decoding sampleCs
      { topics := [depositSig, bytes32OfNat 3, bytes32OfNat 5]
        data := bytes32OfNat 100 ++ bytes32OfNat 90
        blockNumber := 11, transactionHash := "0xt" }
      (by decide) sampleCs_ne_empty).1 (by decide) (by decide) (by decide)
  rw [h]
  refine congrArg (fun r => [r]) ?_
  have htake : (bytes32OfNat 100 ++ bytes32OfNat 90).take 32 = bytes32OfNat 100 := by decide
  have hdrop : ((bytes32OfNat 100 ++ bytes32OfNat 90).drop 32).take 32 = bytes32OfNat 90 := by
    decide
  simp only [List.getD, htake, hdrop]
  refine FormattedVaultEvent.mk.injEq .. ▸ ?_
  simp only [htake, hdrop]
  norm_num
  refine ⟨by decide, by decide, by decide⟩

/-- C5: the decoders process each log independently and never abort: an
unknown topics[0] yields no decoded vault event; any log on which
decoding fails (including malformed data) is simply absent from the
output while all other logs of the batch decode as without it, in both
the vault decoder and the DepositProcessed decoder. -/
theorem c5_decoder_skips_and_never_aborts (cs : List Nat → String)
    (xs ys : List RawLog) (log : RawLog) :
    (log.topics.getD 0 [] ≠ transferSig → log.topics.getD 0 [] ≠ depositSig →
      log.topics.getD 0 [] ≠ withdrawSig → vaultDecodeLog cs log = none) ∧
    (vaultDecodeLog cs log = none →
      vaultFormatEvents cs (xs ++ log :: ys) = vaultFormatEvents cs (xs ++ ys)) ∧
    (krDecodeLog cs log = none →
      krFormatEvents cs (xs ++ log :: ys) = krFormatEvents cs (xs ++ ys)) := by
  refine ⟨?_, ?_, ?_⟩
  · intro h1 h2 h3
    simp only [vaultDecodeLog, if_neg h1, if_neg h2, if_neg h3]
  · intro h
    simp [vaultFormatEvents, List.filterMap_append, List.filterMap_cons, h]
  · intro h
    simp [krFormatEvents, List.filterMap_append, List.filterMap_cons, h]

/-- Witness for C5: an unknown-signature log and a truncated-data
Deposit log both vanish from a batch that still decodes the rest. -/
theorem c5_witness :
    vaultFormatEvents sampleCs
        [{ topics := [bytes32OfNat 1, bytes32OfNat 2, bytes32OfNat 3]
           data := bytes32OfNat 0, blockNumber := 1, transactionHash := "" }] = [] ∧
    krFormatEvents sampleCs
        [{ topics := [bytes32OfNat 0, bytes32OfNat 7], data := []
           blockNumber := 0, transactionHash := "" }] = [] := by
  constructor
  · have hnone : vaultDecodeLog sampleCs
        { topics := [bytes32OfNat 1, bytes32OfNat 2, bytes32OfNat 3]
          data := bytes32OfNat 0, blockNumber := 1, transactionHash := "" } = none :=
      (c5_decoder_skips_and_never_aborts sampleCs [] []
        { topics := [bytes32OfNat 1, bytes32OfNat 2, bytes32OfNat 3]
          data := bytes32OfNat 0, blockNumber := 1, transactionHash := "" }).1
        (by decide) (by decide) (by decide)
    have h := (c5_decoder_skips_and_never_aborts sampleCs [] []
        { topics := [bytes32OfNat 1, bytes32OfNat 2, bytes32OfNat 3]
          data := bytes32OfNat 0, blockNumber := 1, transactionHash := "" }).2.1 hnone
    simpa using h
  · have h := (c5_decoder_skips_and_never_aborts sampleCs [] []
        { topics := [bytes32OfNat 0, bytes32OfNat 7], data := []
          blockNumber := 0, transactionHash := "" }).2.2 (by decide)
    simpa using h

/-! ### Running balance (calculateRunningBalance) -/

/-- Worker of calculateRunningBalance: threads the running balance
through the event list, emitting each event with the balance after it. -/
def calcRB : Int → List FormattedVaultEvent → List (FormattedVaultEvent × Int)
  | _, [] => []
  | rb, e :: rest => (e, rb + e.balanceChange) :: calcRB (rb + e.balanceChange) rest

/-- calculateRunningBalance: running balance starts at zero and each
event adds its balanceChange. -/
def calculateRunningBalance (events : List FormattedVaultEvent) :
    List (FormattedVaultEvent × Int) :=
  calcRB 0 events

theorem calcRB_length : ∀ (events : List FormattedVaultEvent) (rb : Int),
    (calcRB rb events).length = events.length
  | [], _ => rfl
  | _ :: rest, rb => by simp [calcRB, calcRB_length rest]

theorem calcRB_get : ∀ (events : List FormattedVaultEvent) (rb : Int) (i : Nat)
    (h : i < events.length) (h2 : i < (calcRB rb events).length),
    (calcRB rb events).get ⟨i, h2⟩ =
      (events.get ⟨i, h⟩,
        rb + (((events.take (i + 1)).map FormattedVaultEvent.balanceChange).sum)) := by
  intro events
  induction events with
  | nil => intro rb i h h2; simp at h
  | cons e rest ih =>
    intro rb i h h2
    cases i with
    | zero => simp [calcRB]
    | succ j =>
      have hj : j < rest.length := by simpa using h
      have hj2 : j < (calcRB (rb + e.balanceChange) rest).length := by
        rw [calcRB_length]; exact hj
      have := ih (rb + e.balanceChange) j hj hj2
      simp only [calcRB, List.get_cons_succ, List.take_succ_cons, List.map_cons,
        List.sum_cons] at this ⊢
      rw [this, Int.add_assoc]

theorem sum_filter_of_zeroes {l : List FormattedVaultEvent}
    (p : FormattedVaultEvent → Bool)
    (h : ∀ e ∈ l, p e = false → e.balanceChange = 0) :
    ((l.filter p).map FormattedVaultEvent.balanceChange).sum =
      (l.map FormattedVaultEvent.balanceChange).sum := by
  induction l with
  | nil => rfl
  | cons e rest ih =>
    have hrest := ih (fun x hx => h x (List.mem_cons_of_mem _ hx))
    by_cases hp : p e = true
    · simp [List.filter_cons, hp, hrest]
    · have h0 : e.balanceChange = 0 := h e (List.mem_cons_self _ _) (by simpa using hp)
      simp [List.filter_cons, hp, hrest, h0]

/-- C4: the running-balance aggregation returns a list of the same
length and order whose i-th running balance equals the exact integer sum
of balanceChange over inputs 0 through i, starting from 0; when every
ShareTransfer event carries a zero balanceChange (as the decoder
guarantees), ShareTransfer events contribute nothing to any running
balance; it is a pure left-fold with no lookback and no reordering. -/
theorem c4_running_balance_left_fold (events : List FormattedVaultEvent) :
    (calculateRunningBalance events).length = events.length ∧
    (∀ (i : Nat) (h : i < events.length) (h2 : i < (calculateRunningBalance events).length),
      ((calculateRunningBalance events).get ⟨i, h2⟩).1 = events.get ⟨i, h⟩ ∧
      ((calculateRunningBalance events).get ⟨i, h2⟩).2 =
        (((events.take (i + 1)).map FormattedVaultEvent.balanceChange).sum)) ∧
    ((∀ e ∈ events, e.eventType = EvType.shareTransfer → e.balanceChange = 0) →
      ∀ (i : Nat) (h : i < events.length) (h2 : i < (calculateRunningBalance events).length),
        ((calculateRunningBalance events).get ⟨i, h2⟩).2 =
          ((((events.take (i + 1)).filter
              (fun e => !(e.eventType == EvType.shareTransfer))).map
              FormattedVaultEvent.balanceChange).sum)) := by
  refine ⟨calcRB_length events 0, ?_, ?_⟩
  · intro i h h2
    have h3 := calcRB_get events 0 i h h2
    exact ⟨by simpa using congrArg Prod.fst h3, by simpa using congrArg Prod.snd h3⟩
  · intro hst i h h2
    have h3 := calcRB_get events 0 i h h2
    have h4 : ((calculateRunningBalance events).get ⟨i, h2⟩).2 =
        (((events.take (i + 1)).map FormattedVaultEvent.balanceChange).sum) := by
      simpa using congrArg Prod.snd h3
    have hz : ∀ e ∈ events.take (i + 1),
        (!(e.eventType == EvType.shareTransfer)) = false → e.balanceChange = 0 := by
      intro e he hp
      have : e.eventType = EvType.shareTransfer := by
        simpa using hp
      exact hst e (List.take_subset _ _ he) this
    rw [h4]
    exact (sum_filter_of_zeroes _ hz).symm

/-- A concrete list of formatted events whose balanceChange sequence is
100, -40, 0, 5 (the worked example of the specification). -/
def rbSample : List FormattedVaultEvent :=
  [{ blockNumber := 1, transactionHash := "", eventType := .deposit
     caller := "a", owner := "a", receiver := "a", assets := 100, shares := 1
     balanceChange := 100 },
   { blockNumber := 2, transactionHash := "", eventType := .withdraw
     caller := "b", owner := "b", receiver := "b", assets := 40, shares := 1
     balanceChange := -40 },
   { blockNumber := 3, transactionHash := "", eventType := .shareTransfer
     caller := "c", owner := "", receiver := "d", assets := 0, shares := 1
     balanceChange := 0 },
   { blockNumber := 4, transactionHash := "", eventType := .deposit
     caller := "e", owner := "e", receiver := "e", assets := 5, shares := 1
     balanceChange := 5 }]

/-- Witness for C4: running balances of the sample sequence are
100, 60, 60, 65. -/
theorem c4_witness :
    ((calculateRunningBalance rbSample).get ⟨2, by decide⟩).2 = 60 ∧
    ((calculateRunningBalance rbSample).get ⟨3, by decide⟩).2 = 65 := by
  constructor
  · have h := ((c4_running_balance_left_fold rbSample).2.1 2 (by decide) (by decide)).2
    rw [h]; decide
  · have h := ((c4_running_balance_left_fold rbSample).2.2 (by decide) 3 (by decide) (by decide))
    rw [h]; decide

/-! ### Per-user net balances (saveUserBalances) -/

/-- One accumulator entry of saveUserBalances. -/
structure UserBalance where
  user_address : String
  total_deposited : Nat
  total_withdrawn : Nat
  deriving Repr, DecidableEq

/-- The hard-coded excluded address. -/
def excludedUser : String := "0x836304B832687f3811a0dF935934C724B40578eB"

/-- The skip conditions of the saveUserBalances loop body: share
transfers, falsy owner, and the excluded user (case-insensitive). -/
def vaultSkip (e : FormattedVaultEvent) : Bool :=
  e.eventType == EvType.shareTransfer || e.owner == "" ||
    toLowerS e.owner == toLowerS excludedUser

/-- Adding one event onto a user entry: deposits add assets to
total_deposited, withdrawals to total_withdrawn. -/
def bumpBalance (b : UserBalance) (e : FormattedVaultEvent) : UserBalance :=
  match e.eventType with
  | .deposit => { b with total_deposited := b.total_deposited + e.assets }
  | .withdraw => { b with total_withdrawn := b.total_withdrawn + e.assets }
  | .shareTransfer => b

/-- Insertion into the accumulator object: bump the entry whose key is
the owner, creating a fresh zero entry at the end when absent (string
object keys preserve insertion order). -/
def insertBalance : List UserBalance → FormattedVaultEvent → List UserBalance
  | [], e => [bumpBalance { user_address := e.owner, total_deposited := 0
                            total_withdrawn := 0 } e]
  | b :: rest, e =>
    if b.user_address = e.owner then bumpBalance b e :: rest
    else b :: insertBalance rest e

/-- One step of the grouping loop. -/
def addUserEvent (acc : List UserBalance) (e : FormattedVaultEvent) : List UserBalance :=
  if vaultSkip e then acc else insertBalance acc e

/-- The userBalances object after the grouping loop. -/
def buildUserBalances (events : List FormattedVaultEvent) : List UserBalance :=
  events.foldl addUserEvent []

/-- Net balance of an entry. -/
def netBal (b : UserBalance) : Int :=
  (b.total_deposited : Int) - (b.total_withdrawn : Int)

/-- The rows that reach the CSV: entries with nonzero net balance, in
object order. -/
def vaultBalanceRows (events : List FormattedVaultEvent) : List UserBalance :=
  (buildUserBalances events).filter (fun b => decide (netBal b ≠ 0))

/-- The reported number of unique users with non-zero balance. -/
def userCountOut (events : List FormattedVaultEvent) : Nat :=
  ((buildUserBalances events).filter (fun b => decide (netBal b ≠ 0))).length

/-- Run-wide total of deposits over all accumulator entries. -/
def totalsDeposited (events : List FormattedVaultEvent) : Nat :=
  ((buildUserBalances events).map (·.total_deposited)).sum

/-- Run-wide total of withdrawals over all accumulator entries. -/
def totalsWithdrawn (events : List FormattedVaultEvent) : Nat :=
  ((buildUserBalances events).map (·.total_withdrawn)).sum

/-- The reported run-wide net balance. -/
def summaryNet (events : List FormattedVaultEvent) : Int :=
  (totalsDeposited events : Int) - (totalsWithdrawn events : Int)

/-- Specification-side sum: assets deposited by a given owner. -/
def specDeposited (u : String) (events : List FormattedVaultEvent) : Nat :=
  ((events.filter (fun e => decide (e.owner = u ∧ e.eventType = EvType.deposit))).map
    (·.assets)).sum

/-- Specification-side sum: assets withdrawn by a given owner. -/
def specWithdrawn (u : String) (events : List FormattedVaultEvent) : Nat :=
  ((events.filter (fun e => decide (e.owner = u ∧ e.eventType = EvType.withdraw))).map
    (·.assets)).sum

/-- Whether a user owns at least one deposit or withdrawal event. -/
def participates (u : String) (events : List FormattedVaultEvent) : Bool :=
  events.any (fun e => decide (e.owner = u ∧ e.eventType ≠ EvType.shareTransfer))

/-- Lookup of the entry of a given user. -/
def findBal (u : String) (l : List UserBalance) : Option UserBalance :=
  l.find? (fun b => b.user_address == u)

theorem bumpBalance_user (b : UserBalance) (e : FormattedVaultEvent) :
    (bumpBalance b e).user_address = b.user_address := by
  unfold bumpBalance
  cases e.eventType <;> rfl

theorem findBal_insertBalance_self (e : FormattedVaultEvent) :
    ∀ acc : List UserBalance,
      findBal e.owner (insertBalance acc e) =
        some (bumpBalance ((findBal e.owner acc).getD
          { user_address := e.owner, total_deposited := 0, total_withdrawn := 0 }) e)
  | [] => by
    simp [findBal, insertBalance, List.find?_cons, bumpBalance_user]
  | b :: rest => by
    by_cases hb : b.user_address = e.owner
    · simp [findBal, insertBalance, hb, List.find?_cons, bumpBalance_user]
    · have ih := findBal_insertBalance_self e rest
      simp only [insertBalance, if_neg hb, findBal, List.find?_cons] at ih ⊢
      have hbeq : (b.user_address == e.owner) = false := by
        simpa using hb
      simp only [hbeq]
      exact ih

theorem findBal_insertBalance_ne (e : FormattedVaultEvent) (k : String)
    (hk : e.owner ≠ k) :
    ∀ acc : List UserBalance, findBal k (insertBalance acc e) = findBal k acc
  | [] => by
    have : (bumpBalance { user_address := e.owner, total_deposited := 0
                          total_withdrawn := 0 } e).user_address = e.owner :=
      bumpBalance_user _ _
    simp [findBal, insertBalance, List.find?_cons, this, hk]
  | b :: rest => by
    by_cases hb : b.user_address = e.owner
    · have h1 : (bumpBalance b e).user_address = b.user_address := bumpBalance_user _ _
      have hek : (e.owner == k) = false := by simpa using hk
      simp [findBal, insertBalance, hb, List.find?_cons, h1, hek]
    · have ih := findBal_insertBalance_ne e k hk rest
      simp only [insertBalance, if_neg hb, findBal, List.find?_cons] at ih ⊢
      cases hbk : (b.user_address == k) with
      | true => rfl
      | false => exact ih

theorem vaultSkip_eq_true_iff (e : FormattedVaultEvent) :
    vaultSkip e = true ↔
      (e.eventType = EvType.shareTransfer ∨ e.owner = "" ∨
        toLowerS e.owner = toLowerS excludedUser) := by
  simp [vaultSkip, or_assoc]

theorem specDeposited_cons (u : String) (e : FormattedVaultEvent)
    (rest : List FormattedVaultEvent) :
    specDeposited u (e :: rest) =
      (if e.owner = u ∧ e.eventType = EvType.deposit then e.assets else 0) +
        specDeposited u rest := by
  by_cases hc : e.owner = u ∧ e.eventType = EvType.deposit <;>
    simp [specDeposited, List.filter_cons, hc]

theorem specWithdrawn_cons (u : String) (e : FormattedVaultEvent)
    (rest : List FormattedVaultEvent) :
    specWithdrawn u (e :: rest) =
      (if e.owner = u ∧ e.eventType = EvType.withdraw then e.assets else 0) +
        specWithdrawn u rest := by
  by_cases hc : e.owner = u ∧ e.eventType = EvType.withdraw <;>
    simp [specWithdrawn, List.filter_cons, hc]

theorem participates_cons (u : String) (e : FormattedVaultEvent)
    (rest : List FormattedVaultEvent) :
    participates u (e :: rest) =
      (decide (e.owner = u ∧ e.eventType ≠ EvType.shareTransfer) || participates u rest) :=
  rfl

theorem findBal_build_aux (u : String) (hu1 : u ≠ "")
    (hu2 : toLowerS u ≠ toLowerS excludedUser) :
    ∀ (events : List FormattedVaultEvent) (acc : List UserBalance),
      findBal u (events.foldl addUserEvent acc) =
        match findBal u acc with
        | some b =>
          some { user_address := b.user_address
                 total_deposited := b.total_deposited + specDeposited u events
                 total_withdrawn := b.total_withdrawn + specWithdrawn u events }
        | none =>
          if participates u events then
            some { user_address := u, total_deposited := specDeposited u events
                   total_withdrawn := specWithdrawn u events }
          else none
  | [], acc => by
    cases hf : findBal u acc with
    | some b => simp [specDeposited, specWithdrawn, hf]
    | none => simp [participates, specDeposited, specWithdrawn, hf]
  | e :: rest, acc => by
    rw [List.foldl_cons]
    have ih := findBal_build_aux u hu1 hu2 rest
    cases hskip : vaultSkip e with
    | true =>
      have hstep : addUserEvent acc e = acc := by
        simp [addUserEvent, hskip]
      rw [hstep, ih acc]
      have hcases := (vaultSkip_eq_true_iff e).mp hskip
      have hno : e.owner ≠ u ∨ e.eventType = EvType.shareTransfer := by
        rcases hcases with h | h | h
        · right; exact h
        · left; intro hc; rw [hc] at h; exact hu1 h
        · left; intro hc; rw [hc] at h; exact hu2 h
      have hd : ¬(e.owner = u ∧ e.eventType = EvType.deposit) := by
        rintro ⟨h1, h2⟩
        rcases hno with h | h
        · exact h h1
        · rw [h2] at h; cases h
      have hw : ¬(e.owner = u ∧ e.eventType = EvType.withdraw) := by
        rintro ⟨h1, h2⟩
        rcases hno with h | h
        · exact h h1
        · rw [h2] at h; cases h
      have hp : ¬(e.owner = u ∧ e.eventType ≠ EvType.shareTransfer) := by
        rintro ⟨h1, h2⟩
        rcases hno with h | h
        · exact h h1
        · exact h2 h
      rw [specDeposited_cons, specWithdrawn_cons, participates_cons,
        if_neg hd, if_neg hw]
      simp [hp]
    | false =>
      have hstep : addUserEvent acc e = insertBalance acc e := by
        simp [addUserEvent, hskip]
      rw [hstep, ih (insertBalance acc e)]
      have hnst : e.eventType ≠ EvType.shareTransfer := by
        intro hc
        have : vaultSkip e = true := (vaultSkip_eq_true_iff e).mpr (Or.inl hc)
        rw [this] at hskip; cases hskip
      by_cases ho : e.owner = u
      · subst ho
        rw [findBal_insertBalance_self e acc]
        rw [specDeposited_cons, specWithdrawn_cons, participates_cons]
        have hpart : (decide (e.owner = e.owner ∧ e.eventType ≠ EvType.shareTransfer)
            || participates e.owner rest) = true := by
          simp [hnst]
        rw [hpart]
        cases hf : findBal e.owner acc with
        | some b =>
          cases het : e.eventType with
          | shareTransfer => exact absurd het hnst
          | deposit =>
            simp [hf, bumpBalance, het, UserBalance.mk.injEq]
            omega
          | withdraw =>
            simp [hf, bumpBalance, het, UserBalance.mk.injEq]
            omega
        | none =>
          cases het : e.eventType with
          | shareTransfer => exact absurd het hnst
          | deposit =>
            simp [hf, bumpBalance, het, UserBalance.mk.injEq]
          | withdraw =>
            simp [hf, bumpBalance, het, UserBalance.mk.injEq]
      · rw [findBal_insertBalance_ne e u ho acc]
        have hd0 : (if e.owner = u ∧ e.eventType = EvType.deposit then e.assets else 0) = 0 :=
          if_neg (by rintro ⟨h1, _⟩; exact ho h1)
        have hw0 : (if e.owner = u ∧ e.eventType = EvType.withdraw then e.assets else 0) = 0 :=
          if_neg (by rintro ⟨h1, _⟩; exact ho h1)
        have hdec : decide (e.owner = u ∧ e.eventType ≠ EvType.shareTransfer) = false := by
          simp only [decide_eq_false_iff_not]
          rintro ⟨h1, _⟩
          exact ho h1
        rw [specDeposited_cons, specWithdrawn_cons, participates_cons, hd0, hw0, hdec]
        simp

/-- The entry of a user in the built userBalances object: present with
exactly the per-user deposit and withdrawal sums when the user owns at
least one non-ShareTransfer event, absent otherwise. -/
theorem findBal_build (u : String) (hu1 : u ≠ "")
    (hu2 : toLowerS u ≠ toLowerS excludedUser) (events : List FormattedVaultEvent) :
    findBal u (buildUserBalances events) =
      if participates u events then
        some { user_address := u, total_deposited := specDeposited u events
               total_withdrawn := specWithdrawn u events }
      else none := by
  have h := findBal_build_aux u hu1 hu2 events []
  have hnil : findBal u ([] : List UserBalance) = none := rfl
  rw [buildUserBalances, h, hnil]

theorem mem_insertBalance_key (e : FormattedVaultEvent) :
    ∀ (acc : List UserBalance) (x : UserBalance), x ∈ insertBalance acc e →
      x.user_address = e.owner ∨ x.user_address ∈ acc.map (·.user_address)
  | [], x, hx => by
    simp only [insertBalance, List.mem_singleton] at hx
    left
    rw [hx, bumpBalance_user]
  | b :: rest, x, hx => by
    by_cases hb : b.user_address = e.owner
    · rw [insertBalance, if_pos hb] at hx
      rcases List.mem_cons.mp hx with h | h
      · left; rw [h, bumpBalance_user, hb]
      · right; exact List.mem_map.mpr ⟨x, List.mem_cons_of_mem _ h, rfl⟩
    · rw [insertBalance, if_neg hb] at hx
      rcases List.mem_cons.mp hx with h | h
      · right; exact List.mem_map.mpr ⟨x, h ▸ List.mem_cons_self _ _, by rw [h]⟩
      · rcases mem_insertBalance_key e rest x h with h2 | h2
        · left; exact h2
        · right
          rcases List.mem_map.mp h2 with ⟨y, hy, hyx⟩
          exact List.mem_map.mpr ⟨y, List.mem_cons_of_mem _ hy, hyx⟩

theorem insertBalance_pairwise (e : FormattedVaultEvent) :
    ∀ acc : List UserBalance,
      acc.Pairwise (fun a b => a.user_address ≠ b.user_address) →
      (insertBalance acc e).Pairwise (fun a b => a.user_address ≠ b.user_address)
  | [], _ => by simp [insertBalance]
  | b :: rest, hpw => by
    rcases List.pairwise_cons.mp hpw with ⟨hb, hrest⟩
    by_cases hbe : b.user_address = e.owner
    · rw [insertBalance, if_pos hbe]
      refine List.pairwise_cons.mpr ⟨?_, hrest⟩
      intro x hx
      rw [bumpBalance_user]
      exact hb x hx
    · rw [insertBalance, if_neg hbe]
      refine List.pairwise_cons.mpr ⟨?_, insertBalance_pairwise e rest hrest⟩
      intro x hx
      rcases mem_insertBalance_key e rest x hx with h | h
      · rw [h]; exact hbe
      · rcases List.mem_map.mp h with ⟨y, hy, hyx⟩
        rw [← hyx]
        exact hb y hy

theorem buildUserBalances_pairwise_aux :
    ∀ (events : List FormattedVaultEvent) (acc : List UserBalance),
      acc.Pairwise (fun a b => a.user_address ≠ b.user_address) →
      (events.foldl addUserEvent acc).Pairwise (fun a b => a.user_address ≠ b.user_address)
  | [], _, h => h
  | e :: rest, acc, h => by
    rw [List.foldl_cons]
    cases hskip : vaultSkip e with
    | true =>
      have hstep : addUserEvent acc e = acc := by simp [addUserEvent, hskip]
      rw [hstep]
      exact buildUserBalances_pairwise_aux rest acc h
    | false =>
      have hstep : addUserEvent acc e = insertBalance acc e := by simp [addUserEvent, hskip]
      rw [hstep]
      exact buildUserBalances_pairwise_aux rest _ (insertBalance_pairwise e acc h)

theorem buildUserBalances_pairwise (events : List FormattedVaultEvent) :
    (buildUserBalances events).Pairwise (fun a b => a.user_address ≠ b.user_address) :=
  buildUserBalances_pairwise_aux events [] List.Pairwise.nil

theorem find?_filter_of_pairwise (p : UserBalance → Bool) (u : String) :
    ∀ l : List UserBalance,
      l.Pairwise (fun a b => a.user_address ≠ b.user_address) →
      (l.filter p).find? (fun b => b.user_address == u) =
        match l.find? (fun b => b.user_address == u) with
        | some b => if p b then some b else none
        | none => none
  | [], _ => rfl
  | b :: rest, hpw => by
    rcases List.pairwise_cons.mp hpw with ⟨hb, hrest⟩
    by_cases hbu : b.user_address = u
    · have hnone : (rest.filter p).find? (fun x => x.user_address == u) = none := by
        rw [List.find?_eq_none]
        intro x hx
        have hx2 := List.mem_of_mem_filter hx
        have hne := hb x hx2
        simp only [beq_iff_eq]
        rw [← hbu]
        exact fun hc => hne hc.symm
      by_cases hp : p b = true
      · simp [List.filter_cons, hp, List.find?_cons, hbu]
      · simp only [Bool.not_eq_true] at hp
        simp [List.filter_cons, hp, List.find?_cons, hbu, hnone]
    · have ih := find?_filter_of_pairwise p u rest hrest
      by_cases hp : p b = true
      · simp [List.filter_cons, hp, List.find?_cons, hbu, ih]
      · simp only [Bool.not_eq_true] at hp
        simp [List.filter_cons, hp, List.find?_cons, hbu, ih]

/-- C2: the per-user net-balance aggregation groups events by owner,
skips ShareTransfer events and events of the excluded address
(case-insensitive), sums assets of VaultDeposit events into
total_deposited and of VaultWithdraw events into total_withdrawn, and
keeps exactly one row per user whose net balance
total_deposited - total_withdrawn is nonzero; the empty event list
yields the empty aggregate. -/
theorem c2_per_user_net_balance (events : List FormattedVaultEvent) (u : String)
    (hu1 : u ≠ "") (hu2 : toLowerS u ≠ toLowerS excludedUser) :
    ((vaultBalanceRows events).find? (fun b => b.user_address == u) =
      if participates u events ∧
          (specDeposited u events : Int) - (specWithdrawn u events : Int) ≠ 0 then
        some { user_address := u, total_deposited := specDeposited u events
               total_withdrawn := specWithdrawn u events }
      else none) ∧
    (vaultBalanceRows events).Pairwise (fun a b => a.user_address ≠ b.user_address) ∧
    vaultBalanceRows ([] : List FormattedVaultEvent) = [] := by
  refine ⟨?_, ?_, rfl⟩
  · have hpw := buildUserBalances_pairwise events
    have h1 := find?_filter_of_pairwise (fun b => decide (netBal b ≠ 0)) u
      (buildUserBalances events) hpw
    have h2 := findBal_build u hu1 hu2 events
    rw [findBal] at h2
    rw [vaultBalanceRows, h1, h2]
    by_cases hp : participates u events = true
    · rw [if_pos hp]
      by_cases hz : (specDeposited u events : Int) - (specWithdrawn u events : Int) ≠ 0
      · rw [if_pos ⟨hp, hz⟩]
        simp [netBal, hz]
      · rw [if_neg (fun hc => hz hc.2)]
        simp only [not_not] at hz
        simp [netBal, hz]
    · rw [if_neg hp, if_neg (fun hc => hp hc.1)]
  · exact List.Pairwise.filter _ (buildUserBalances_pairwise events)

/-- Concrete events: user 0xAa deposits 100 and withdraws 30, user 0xBb
deposits and withdraws 50 (zero net), the excluded user deposits 1000. -/
def c2SampleEvents : List FormattedVaultEvent :=
  [{ blockNumber := 1, transactionHash := "", eventType := .deposit
     caller := "0xAa", owner := "0xAa", receiver := "0xAa", assets := 100, shares := 100
     balanceChange := 100 },
   { blockNumber := 2, transactionHash := "", eventType := .withdraw
     caller := "0xAa", owner := "0xAa", receiver := "0xAa", assets := 30, shares := 30
     balanceChange := -30 },
   { blockNumber := 3, transactionHash := "", eventType := .deposit
     caller := "0xBb", owner := "0xBb", receiver := "0xBb", assets := 50, shares := 50
     balanceChange := 50 },
   { blockNumber := 4, transactionHash := "", eventType := .withdraw
     caller := "0xBb", owner := "0xBb", receiver := "0xBb", assets := 50, shares := 50
     balanceChange := -50 },
   { blockNumber := 5, transactionHash := "", eventType := .deposit
     caller := excludedUser, owner := excludedUser, receiver := excludedUser
     assets := 1000, shares := 1000, balanceChange := 1000 }]

/-- Witness for C2: user 0xAa appears with totals 100/30, zero-net user
0xBb is absent from the rows. -/
theorem c2_witness :
    (vaultBalanceRows c2SampleEvents).find? (fun b => b.user_address == "0xAa") =
      some { user_address := "0xAa", total_deposited := 100, total_withdrawn := 30 } ∧
    (vaultBalanceRows c2SampleEvents).find? (fun b => b.user_address == "0xBb") = none := by
  constructor
  · have h := (c2_per_user_net_balance c2SampleEvents "0xAa" (by decide) (by decide)).1
    rw [h]
    decide
  · have h := (c2_per_user_net_balance c2SampleEvents "0xBb" (by decide) (by decide)).1
    rw [h]
    decide

/-- The events whose assets reach some total_deposited field. -/
def includedDeposit (e : FormattedVaultEvent) : Bool :=
  !vaultSkip e && e.eventType == EvType.deposit

/-- The events whose assets reach some total_withdrawn field. -/
def includedWithdraw (e : FormattedVaultEvent) : Bool :=
  !vaultSkip e && e.eventType == EvType.withdraw

theorem sumDep_insertBalance (e : FormattedVaultEvent) :
    ∀ acc : List UserBalance,
      ((insertBalance acc e).map (·.total_deposited)).sum =
        ((acc.map (·.total_deposited)).sum) +
          (if e.eventType = EvType.deposit then e.assets else 0)
  | [] => by cases het : e.eventType <;> simp [insertBalance, bumpBalance, het]
  | b :: rest => by
    by_cases hb : b.user_address = e.owner
    · cases het : e.eventType <;>
        simp [insertBalance, hb, bumpBalance, het] <;> omega
    · simp [insertBalance, hb, sumDep_insertBalance e rest]
      omega

theorem sumWd_insertBalance (e : FormattedVaultEvent) :
    ∀ acc : List UserBalance,
      ((insertBalance acc e).map (·.total_withdrawn)).sum =
        ((acc.map (·.total_withdrawn)).sum) +
          (if e.eventType = EvType.withdraw then e.assets else 0)
  | [] => by cases het : e.eventType <;> simp [insertBalance, bumpBalance, het]
  | b :: rest => by
    by_cases hb : b.user_address = e.owner
    · cases het : e.eventType <;>
        simp [insertBalance, hb, bumpBalance, het] <;> omega
    · simp [insertBalance, hb, sumWd_insertBalance e rest]
      omega

theorem sumDep_fold :
    ∀ (events : List FormattedVaultEvent) (acc : List UserBalance),
      ((events.foldl addUserEvent acc).map (·.total_deposited)).sum =
        ((acc.map (·.total_deposited)).sum) +
          ((events.filter includedDeposit).map (·.assets)).sum
  | [], acc => by simp
  | e :: rest, acc => by
    rw [List.foldl_cons]
    cases hskip : vaultSkip e with
    | true =>
      have hstep : addUserEvent acc e = acc := by simp [addUserEvent, hskip]
      have hpred : includedDeposit e = false := by simp [includedDeposit, hskip]
      rw [hstep, List.filter_cons, hpred, sumDep_fold rest acc]
      simp
    | false =>
      have hstep : addUserEvent acc e = insertBalance acc e := by
        simp [addUserEvent, hskip]
      rw [hstep, sumDep_fold rest _, sumDep_insertBalance e acc, List.filter_cons]
      by_cases het : e.eventType = EvType.deposit
      · have hpred : includedDeposit e = true := by simp [includedDeposit, hskip, het]
        rw [if_pos het]
        simp [hpred]
        omega
      · have hpred : includedDeposit e = false := by simp [includedDeposit, hskip, het]
        rw [if_neg het]
        simp [hpred]

theorem sumWd_fold :
    ∀ (events : List FormattedVaultEvent) (acc : List UserBalance),
      ((events.foldl addUserEvent acc).map (·.total_withdrawn)).sum =
        ((acc.map (·.total_withdrawn)).sum) +
          ((events.filter includedWithdraw).map (·.assets)).sum
  | [], acc => by simp
  | e :: rest, acc => by
    rw [List.foldl_cons]
    cases hskip : vaultSkip e with
    | true =>
      have hstep : addUserEvent acc e = acc := by simp [addUserEvent, hskip]
      have hpred : includedWithdraw e = false := by simp [includedWithdraw, hskip]
      rw [hstep, List.filter_cons, hpred, sumWd_fold rest acc]
      simp
    | false =>
      have hstep : addUserEvent acc e = insertBalance acc e := by
        simp [addUserEvent, hskip]
      rw [hstep, sumWd_fold rest _, sumWd_insertBalance e acc, List.filter_cons]
      by_cases het : e.eventType = EvType.withdraw
      · have hpred : includedWithdraw e = true := by simp [includedWithdraw, hskip, het]
        rw [if_pos het]
        simp [hpred]
        omega
      · have hpred : includedWithdraw e = false := by simp [includedWithdraw, hskip, het]
        rw [if_neg het]
        simp [hpred]

theorem vaultSkip_eq_false_iff (e : FormattedVaultEvent) :
    vaultSkip e = false ↔
      (e.eventType ≠ EvType.shareTransfer ∧ e.owner ≠ "" ∧
        toLowerS e.owner ≠ toLowerS excludedUser) := by
  rw [← Bool.not_eq_true, vaultSkip_eq_true_iff]
  tauto

theorem build_not_excluded :
    ∀ (events : List FormattedVaultEvent) (acc : List UserBalance),
      (∀ b ∈ acc, toLowerS b.user_address ≠ toLowerS excludedUser) →
      ∀ b ∈ events.foldl addUserEvent acc,
        toLowerS b.user_address ≠ toLowerS excludedUser
  | [], _, h => h
  | e :: rest, acc, h => by
    rw [List.foldl_cons]
    cases hskip : vaultSkip e with
    | true =>
      have hstep : addUserEvent acc e = acc := by simp [addUserEvent, hskip]
      rw [hstep]
      exact build_not_excluded rest acc h
    | false =>
      have hstep : addUserEvent acc e = insertBalance acc e := by
        simp [addUserEvent, hskip]
      rw [hstep]
      refine build_not_excluded rest _ ?_
      intro x hx
      rcases mem_insertBalance_key e acc x hx with h2 | h2
      · rw [h2]
        exact ((vaultSkip_eq_false_iff e).mp hskip).2.2
      · rcases List.mem_map.mp h2 with ⟨y, hy, hyx⟩
        rw [← hyx]
        exact h y hy

/-- C6: the run-wide summary totals are the sums of assets over all
non-skipped deposit and withdrawal events - including those of users
later dropped for zero net balance - while events owned by the excluded
address are skipped and so contribute to neither the rows, the
userCount, nor the totals; userCount counts exactly the entries with
non-zero net balance, which are exactly the emitted rows. -/
theorem c6_run_wide_summary (events : List FormattedVaultEvent) :
    totalsDeposited events = ((events.filter includedDeposit).map (·.assets)).sum ∧
    totalsWithdrawn events = ((events.filter includedWithdraw).map (·.assets)).sum ∧
    summaryNet events = (totalsDeposited events : Int) - (totalsWithdrawn events : Int) ∧
    userCountOut events = (vaultBalanceRows events).length ∧
    userCountOut events =
      ((buildUserBalances events).filter (fun b => decide (netBal b ≠ 0))).length ∧
    (∀ b ∈ vaultBalanceRows events,
      toLowerS b.user_address ≠ toLowerS excludedUser) ∧
    (∀ e ∈ events, toLowerS e.owner = toLowerS excludedUser →
      includedDeposit e = false ∧ includedWithdraw e = false) := by
  refine ⟨?_, ?_, rfl, rfl, rfl, ?_, ?_⟩
  · have h := sumDep_fold events []
    simpa [totalsDeposited, buildUserBalances] using h
  · have h := sumWd_fold events []
    simpa [totalsWithdrawn, buildUserBalances] using h
  · intro b hb
    exact build_not_excluded events [] (by simp) b
      (List.mem_of_mem_filter hb)
  · intro e _ hex
    have hskip : vaultSkip e = true :=
      (vaultSkip_eq_true_iff e).mpr (Or.inr (Or.inr hex))
    exact ⟨by simp [includedDeposit, hskip], by simp [includedWithdraw, hskip]⟩

/-- Witness for C6: on the sample events the totals are 150 and 80
(zero-net user 0xBb included, excluded user's 1000 not), and the user
count is 1. -/
theorem c6_witness :
    totalsDeposited c2SampleEvents = 150 ∧ totalsWithdrawn c2SampleEvents = 80 ∧
    userCountOut c2SampleEvents = 1 ∧
    toLowerS "0xAa" ≠ toLowerS excludedUser := by
  have h := c6_run_wide_summary c2SampleEvents
  refine ⟨?_, ?_, ?_, ?_⟩
  · rw [h.1]; decide
  · rw [h.2.1]; decide
  · rw [h.2.2.2.1]; decide
  · exact h.2.2.2.2.2.1 (UserBalance.mk "0xAa" 100 30) (by decide)

/-! ### Grouping by user and asset (groupEventsByUserAndAsset)

The sort comparator of the source is String.prototype.localeCompare
with no arguments, i.e. the default-locale ICU root collation.  On the
strings at hand it compares the whole primary level (base characters,
ignoring case) first and breaks ties on the tertiary level, where a
lowercase letter precedes the corresponding uppercase letter.  The
collation is modelled below for arbitrary strings by per-character
primary and tertiary weights. -/

/-- Three-way comparison of naturals. -/
def compareNat (a b : Nat) : Ordering :=
  if a < b then .lt else if b < a then .gt else .eq

/-- Lexicographic three-way comparison of weight lists. -/
def listCompare : List Nat → List Nat → Ordering
  | [], [] => .eq
  | [], _ :: _ => .lt
  | _ :: _, [] => .gt
  | a :: as, b :: bs =>
    match compareNat a b with
    | .eq => listCompare as bs
    | o => o

theorem compareNat_eq_lt {a b : Nat} : compareNat a b = .lt ↔ a < b := by
  unfold compareNat
  split_ifs <;> simp_all

theorem compareNat_eq_gt {a b : Nat} : compareNat a b = .gt ↔ b < a := by
  unfold compareNat
  split_ifs <;> simp_all <;> omega

theorem compareNat_eq_eq {a b : Nat} : compareNat a b = .eq ↔ a = b := by
  unfold compareNat
  split_ifs <;> simp_all <;> omega

theorem listCompare_eq_eq : ∀ {as bs : List Nat}, listCompare as bs = .eq ↔ as = bs
  | [], [] => by simp [listCompare]
  | [], _ :: _ => by simp [listCompare]
  | _ :: _, [] => by simp [listCompare]
  | a :: as, b :: bs => by
    rw [listCompare]
    cases hab : compareNat a b with
    | eq =>
      have := compareNat_eq_eq.mp hab
      simp [this, listCompare_eq_eq]
    | lt =>
      have := compareNat_eq_lt.mp hab
      simp
      intro hc
      omega
    | gt =>
      have := compareNat_eq_gt.mp hab
      simp
      intro hc
      omega

theorem listCompare_swap : ∀ (as bs : List Nat),
    (listCompare as bs).swap = listCompare bs as
  | [], [] => rfl
  | [], _ :: _ => rfl
  | _ :: _, [] => rfl
  | a :: as, b :: bs => by
    rw [listCompare, listCompare]
    rcases Nat.lt_trichotomy a b with h | h | h
    · rw [compareNat_eq_lt.mpr h, compareNat_eq_gt.mpr h]
      rfl
    · rw [compareNat_eq_eq.mpr h, compareNat_eq_eq.mpr h.symm]
      exact listCompare_swap as bs
    · rw [compareNat_eq_gt.mpr h, compareNat_eq_lt.mpr h]
      rfl

theorem listCompare_le_trans : ∀ (as bs cs : List Nat),
    listCompare as bs ≠ .gt → listCompare bs cs ≠ .gt → listCompare as cs ≠ .gt
  | [], bs, cs, _, _ => by cases cs <;> simp [listCompare]
  | _ :: _, [], _, h1, _ => absurd rfl h1
  | _ :: _, _ :: _, [], _, h2 => absurd rfl h2
  | a :: as, b :: bs, c :: cs, h1, h2 => by
    rw [listCompare] at h1 h2 ⊢
    cases hab : compareNat a b with
    | gt => rw [hab] at h1; exact absurd rfl h1
    | lt =>
      have hab2 := compareNat_eq_lt.mp hab
      cases hbc : compareNat b c with
      | gt => rw [hbc] at h2; exact absurd rfl h2
      | lt =>
        have hbc2 := compareNat_eq_lt.mp hbc
        rw [compareNat_eq_lt.mpr (lt_trans hab2 hbc2)]
        simp
      | eq =>
        have hbc2 := compareNat_eq_eq.mp hbc
        rw [compareNat_eq_lt.mpr (hbc2 ▸ hab2)]
        simp
    | eq =>
      have hab2 := compareNat_eq_eq.mp hab
      rw [hab] at h1
      cases hbc : compareNat b c with
      | gt => rw [hbc] at h2; exact absurd rfl h2
      | lt =>
        have hbc2 := compareNat_eq_lt.mp hbc
        rw [compareNat_eq_lt.mpr (hab2 ▸ hbc2)]
        simp
      | eq =>
        have hbc2 := compareNat_eq_eq.mp hbc
        rw [hbc] at h2
        rw [compareNat_eq_eq.mpr (hab2.trans hbc2)]
        exact listCompare_le_trans as bs cs h1 h2

/-- Primary collation weight of a character code: digits first, then
letters with case folded together, then everything else. -/
def primOf (n : Nat) : Nat :=
  if 48 ≤ n ∧ n ≤ 57 then n - 48
  else if 97 ≤ n ∧ n ≤ 122 then n - 87
  else if 65 ≤ n ∧ n ≤ 90 then n - 55
  else 100 + n

/-- Tertiary collation weight: uppercase after lowercase. -/
def tertOf (n : Nat) : Nat := if 65 ≤ n ∧ n ≤ 90 then 1 else 0

/-- Character codes of a string. -/
def codesOf (s : String) : List Nat := s.data.map Char.toNat

/-- Primary weight vector of a string. -/
def primKey (s : String) : List Nat := (codesOf s).map primOf

/-- Tertiary weight vector of a string. -/
def tertKey (s : String) : List Nat := (codesOf s).map tertOf

/-- Model of localeCompare under the default (root) collation: compare
the whole primary level, then the whole tertiary level. -/
def icuCompare (s t : String) : Ordering :=
  match listCompare (primKey s) (primKey t) with
  | .eq => listCompare (tertKey s) (tertKey t)
  | o => o

theorem prim_tert_inj {m n : Nat} (h1 : primOf m = primOf n) (h2 : tertOf m = tertOf n) :
    m = n := by
  unfold primOf at h1
  unfold tertOf at h2
  split_ifs at h1 h2 <;> omega

theorem map_prim_tert_inj : ∀ {as bs : List Nat},
    as.map primOf = bs.map primOf → as.map tertOf = bs.map tertOf → as = bs
  | [], [], _, _ => rfl
  | [], _ :: _, h1, _ => by simp at h1
  | _ :: _, [], h1, _ => by simp at h1
  | a :: as, b :: bs, h1, h2 => by
    simp only [List.map_cons, List.cons.injEq] at h1 h2
    exact List.cons_eq_cons.mpr
      ⟨prim_tert_inj h1.1 h2.1, map_prim_tert_inj h1.2 h2.2⟩

theorem codesOf_inj {s t : String} (h : codesOf s = codesOf t) : s = t := by
  have hchar : Function.Injective Char.toNat := by
    intro c d hcd
    exact Char.eq_of_val_eq (UInt32.eq_of_toBitVec_eq (BitVec.eq_of_toNat_eq hcd))
  have hdata : s.data = t.data := (List.map_injective_iff.mpr hchar) h
  cases s
  cases t
  exact congrArg String.mk hdata

theorem icuCompare_eq_eq {s t : String} : icuCompare s t = .eq ↔ s = t := by
  constructor
  · intro h
    rw [icuCompare] at h
    cases hp : listCompare (primKey s) (primKey t) with
    | eq =>
      rw [hp] at h
      have h1 := listCompare_eq_eq.mp hp
      have h2 := listCompare_eq_eq.mp h
      exact codesOf_inj (map_prim_tert_inj h1 h2)
    | lt => rw [hp] at h; cases h
    | gt => rw [hp] at h; cases h
  · intro h
    rw [h, icuCompare, listCompare_eq_eq.mpr rfl, listCompare_eq_eq.mpr rfl]

theorem icuCompare_swap (s t : String) : (icuCompare s t).swap = icuCompare t s := by
  rw [icuCompare, icuCompare]
  cases hp : listCompare (primKey s) (primKey t) with
  | eq =>
    have : listCompare (primKey t) (primKey s) = .eq := by
      rw [← listCompare_swap, hp]; rfl
    rw [this, ← listCompare_swap (tertKey s) (tertKey t)]
  | lt =>
    have : listCompare (primKey t) (primKey s) = .gt := by
      rw [← listCompare_swap, hp]; rfl
    rw [this]
    rfl
  | gt =>
    have : listCompare (primKey t) (primKey s) = .lt := by
      rw [← listCompare_swap, hp]; rfl
    rw [this]
    rfl

theorem icuCompare_le_trans {a b c : String}
    (h1 : icuCompare a b ≠ .gt) (h2 : icuCompare b c ≠ .gt) : icuCompare a c ≠ .gt := by
  rw [icuCompare] at h1 h2 ⊢
  cases hab : listCompare (primKey a) (primKey b) with
  | gt => rw [hab] at h1; exact absurd rfl h1
  | lt =>
    cases hbc : listCompare (primKey b) (primKey c) with
    | gt => rw [hbc] at h2; exact absurd rfl h2
    | eq =>
      have := listCompare_eq_eq.mp hbc
      rw [← this, hab]
      simp
    | lt =>
      have hle := listCompare_le_trans (primKey a) (primKey b) (primKey c)
        (by rw [hab]; simp) (by rw [hbc]; simp)
      cases hac : listCompare (primKey a) (primKey c) with
      | gt => exact absurd hac hle
      | lt => simp
      | eq =>
        have h3 := listCompare_eq_eq.mp hac
        have : listCompare (primKey c) (primKey b) = .lt := by rw [← h3, hab]
        have h4 : listCompare (primKey b) (primKey c) = .gt := by
          rw [← listCompare_swap, this]; rfl
        rw [h4] at hbc
        cases hbc
  | eq =>
    rw [hab] at h1
    have hpeq := listCompare_eq_eq.mp hab
    cases hbc : listCompare (primKey b) (primKey c) with
    | gt => rw [hbc] at h2; exact absurd rfl h2
    | lt =>
      rw [hpeq, hbc]
      simp
    | eq =>
      rw [hbc] at h2
      have hceq := listCompare_eq_eq.mp hbc
      rw [listCompare_eq_eq.mpr (hpeq.trans hceq)]
      exact listCompare_le_trans (tertKey a) (tertKey b) (tertKey c) h1 h2

/-- One output row of the grouped deposit report. -/
structure GroupedRow where
  user : String
  asset : String
  amount : Nat
  deriving Repr, DecidableEq

/-- The sort comparator of groupEventsByUserAndAsset: localeCompare on
users when they differ as strings, otherwise localeCompare on assets. -/
def rowCompare (a b : GroupedRow) : Ordering :=
  if a.user = b.user then icuCompare a.asset b.asset else icuCompare a.user b.user

/-- The comparator as a relation: a sorts no later than b. -/
def rowLe (a b : GroupedRow) : Prop := rowCompare a b ≠ .gt

instance : DecidableRel rowLe := fun a b => by
  unfold rowLe
  infer_instance

theorem rowCompare_swap (a b : GroupedRow) : (rowCompare a b).swap = rowCompare b a := by
  rw [rowCompare, rowCompare]
  by_cases h : a.user = b.user
  · rw [if_pos h, if_pos h.symm, icuCompare_swap]
  · rw [if_neg h, if_neg (fun hc => h hc.symm), icuCompare_swap]

instance : IsTotal GroupedRow rowLe := by
  refine ⟨fun a b => ?_⟩
  by_cases h : rowCompare a b = .gt
  · right
    rw [rowLe, ← rowCompare_swap a b, h]
    simp [Ordering.swap]
  · left
    exact h

instance : IsTrans GroupedRow rowLe := by
  refine ⟨fun a b c h1 h2 => ?_⟩
  rw [rowLe, rowCompare] at h1 h2 ⊢
  by_cases hab : a.user = b.user
  · rw [if_pos hab] at h1
    by_cases hbc : b.user = c.user
    · rw [if_pos hbc] at h2
      rw [if_pos (hab.trans hbc)]
      exact icuCompare_le_trans h1 h2
    · rw [if_neg hbc] at h2
      rw [if_neg (fun hc => hbc (hab.symm.trans hc)), hab]
      exact h2
  · rw [if_neg hab] at h1
    by_cases hbc : b.user = c.user
    · rw [if_neg (fun hc => hab (hc.trans hbc.symm)), ← hbc]
      exact h1
    · rw [if_neg hbc] at h2
      have hac : icuCompare a.user c.user ≠ .gt := icuCompare_le_trans h1 h2
      by_cases huac : a.user = c.user
      · exfalso
        have h1s : icuCompare b.user a.user ≠ .lt := by
          intro hc
          have := icuCompare_swap b.user a.user
          rw [hc] at this
          exact h1 this.symm
        have h2s : icuCompare b.user c.user ≠ .gt := h2
        rw [← huac] at h2s
        cases hx : icuCompare b.user a.user with
        | lt => exact h1s hx
        | gt => exact h2s hx
        | eq => exact hab (icuCompare_eq_eq.mp hx).symm
      · rw [if_neg huac]
        exact hac

/-- The final sort of the grouped report. -/
def sortRows (rows : List GroupedRow) : List GroupedRow :=
  List.insertionSort rowLe rows

/-- The object key used by groupEventsByUserAndAsset. -/
def keyOf (u a : String) : String := u ++ "-" ++ a

/-- One step of the grouping loop: bump the amount of the entry with the
same key, or append a fresh entry holding the event's fields. -/
def insertGrouped : List GroupedRow → DepositRecord → List GroupedRow
  | [], e => [{ user := e.user, asset := e.asset, amount := e.amount }]
  | r :: rest, e =>
    if keyOf r.user r.asset = keyOf e.user e.asset then
      { r with amount := r.amount + e.amount } :: rest
    else r :: insertGrouped rest e

/-- The grouped object, in key insertion order. -/
def groupFold (events : List DepositRecord) : List GroupedRow :=
  events.foldl insertGrouped []

/-- groupEventsByUserAndAsset: group, then sort with the locale
comparator on user and asset. -/
def groupEventsByUserAndAsset (events : List DepositRecord) : List GroupedRow :=
  sortRows (groupFold events)

/-- Absence of the key separator from a string (true of every
checksummed address, which is 0x followed by hex digits). -/
def noDash (s : String) : Prop := Char.ofNat 45 ∉ s.data

instance : DecidablePred noDash := fun s => by
  unfold noDash
  infer_instance

theorem append_dash_inj :
    ∀ (xs1 : List Char) (xs2 : List Char) (ys1 ys2 : List Char),
      Char.ofNat 45 ∉ xs1 → Char.ofNat 45 ∉ xs2 →
      xs1 ++ Char.ofNat 45 :: ys1 = xs2 ++ Char.ofNat 45 :: ys2 →
      xs1 = xs2 ∧ ys1 = ys2
  | [], [], ys1, ys2, _, _, h => ⟨rfl, by simpa using h⟩
  | [], x :: xs2, ys1, ys2, _, h2, h => by
    simp only [List.nil_append, List.cons_append, List.cons.injEq] at h
    exact absurd (h.1 ▸ List.mem_cons_self x xs2) (h.1 ▸ h2)
  | x :: xs1, [], ys1, ys2, h1, _, h => by
    simp only [List.nil_append, List.cons_append, List.cons.injEq] at h
    exact absurd (by rw [h.1]; exact List.mem_cons_self _ _ : Char.ofNat 45 ∈ x :: xs1) h1
  | x1 :: xs1, x2 :: xs2, ys1, ys2, h1, h2, h => by
    simp only [List.cons_append, List.cons.injEq] at h
    have ih := append_dash_inj xs1 xs2 ys1 ys2
      (fun hc => h1 (List.mem_cons_of_mem _ hc))
      (fun hc => h2 (List.mem_cons_of_mem _ hc)) h.2
    exact ⟨by rw [h.1, ih.1], ih.2⟩

theorem keyOf_inj {u1 a1 u2 a2 : String} (h1 : noDash u1) (h2 : noDash u2) :
    keyOf u1 a1 = keyOf u2 a2 ↔ (u1 = u2 ∧ a1 = a2) := by
  constructor
  · intro h
    have hdata : u1.data ++ Char.ofNat 45 :: a1.data =
        u2.data ++ Char.ofNat 45 :: a2.data := by
      have := congrArg String.data h
      simpa [keyOf, String.data_append] using this
    have hsplit := append_dash_inj u1.data u2.data a1.data a2.data h1 h2 hdata
    constructor
    · cases u1; cases u2; exact congrArg String.mk hsplit.1
    · cases a1; cases a2; exact congrArg String.mk hsplit.2
  · rintro ⟨hu, ha⟩
    rw [keyOf, hu, ha, keyOf]

/-- Lookup of a grouped row by object key. -/
def findRow (k : String) (l : List GroupedRow) : Option GroupedRow :=
  l.find? (fun r => keyOf r.user r.asset == k)

/-- Sum of the amounts of the events with a given object key. -/
def keySum (k : String) (events : List DepositRecord) : Nat :=
  ((events.filter (fun e => keyOf e.user e.asset == k)).map (·.amount)).sum

/-- The first event carrying a given object key. -/
def firstWithKey (k : String) (events : List DepositRecord) : Option DepositRecord :=
  events.find? (fun e => keyOf e.user e.asset == k)

theorem findRow_insertGrouped_self (e : DepositRecord) :
    ∀ acc : List GroupedRow,
      findRow (keyOf e.user e.asset) (insertGrouped acc e) =
        some (match findRow (keyOf e.user e.asset) acc with
          | some r => { r with amount := r.amount + e.amount }
          | none => { user := e.user, asset := e.asset, amount := e.amount })
  | [] => by simp [findRow, insertGrouped, List.find?_cons]
  | r :: rest => by
    by_cases hr : keyOf r.user r.asset = keyOf e.user e.asset
    · simp [findRow, insertGrouped, hr, List.find?_cons]
    · have ih := findRow_insertGrouped_self e rest
      have hbeq : (keyOf r.user r.asset == keyOf e.user e.asset) = false := by
        simpa using hr
      simp only [findRow, insertGrouped, if_neg hr, List.find?_cons, hbeq] at ih ⊢
      exact ih

theorem findRow_insertGrouped_ne (e : DepositRecord) (k : String)
    (hk : keyOf e.user e.asset ≠ k) :
    ∀ acc : List GroupedRow, findRow k (insertGrouped acc e) = findRow k acc
  | [] => by
    have hbeq : (keyOf e.user e.asset == k) = false := by simpa using hk
    simp [findRow, insertGrouped, List.find?_cons, hbeq]
  | r :: rest => by
    by_cases hr : keyOf r.user r.asset = keyOf e.user e.asset
    · have hbeq : (keyOf r.user r.asset == k) = false := by
        simpa using hr ▸ hk
      have hke : (keyOf e.user e.asset == k) = false := by simpa using hk
      simp [findRow, insertGrouped, hr, List.find?_cons, hbeq, hke]
    · have ih := findRow_insertGrouped_ne e k hk rest
      simp only [findRow, insertGrouped, if_neg hr, List.find?_cons] at ih ⊢
      cases hrk : (keyOf r.user r.asset == k) with
      | true => rfl
      | false => exact ih

theorem keySum_cons (k : String) (e : DepositRecord) (rest : List DepositRecord) :
    keySum k (e :: rest) =
      (if keyOf e.user e.asset = k then e.amount else 0) + keySum k rest := by
  by_cases hc : keyOf e.user e.asset = k <;> simp [keySum, List.filter_cons, hc]

theorem findRow_fold_aux (k : String) :
    ∀ (events : List DepositRecord) (acc : List GroupedRow),
      findRow k (events.foldl insertGrouped acc) =
        match findRow k acc with
        | some r => some { r with amount := r.amount + keySum k events }
        | none =>
          match firstWithKey k events with
          | some e => some { user := e.user, asset := e.asset, amount := keySum k events }
          | none => none
  | [], acc => by
    cases hf : findRow k acc with
    | some r => simp [keySum, firstWithKey, hf]
    | none => simp [keySum, firstWithKey, hf]
  | e :: rest, acc => by
    rw [List.foldl_cons]
    have ih := findRow_fold_aux k rest
    by_cases hk : keyOf e.user e.asset = k
    · rw [ih (insertGrouped acc e), ← hk, findRow_insertGrouped_self e acc]
      rw [hk]
      have hfirst : firstWithKey k (e :: rest) = some e := by
        simp [firstWithKey, List.find?_cons, hk]
      rw [keySum_cons, if_pos hk, hfirst]
      cases hf : findRow k acc with
      | some r => simp [Nat.add_assoc]
      | none => simp
    · rw [ih (insertGrouped acc e), findRow_insertGrouped_ne e k hk acc]
      have hfirst : firstWithKey k (e :: rest) = firstWithKey k rest := by
        have hbeq : (keyOf e.user e.asset == k) = false := by simpa using hk
        simp [firstWithKey, List.find?_cons, hbeq]
      rw [keySum_cons, if_neg hk, hfirst]
      simp

theorem findRow_fold (k : String) (events : List DepositRecord) :
    findRow k (groupFold events) =
      match firstWithKey k events with
      | some e => some { user := e.user, asset := e.asset, amount := keySum k events }
      | none => none := by
  have h := findRow_fold_aux k events []
  have hnil : findRow k ([] : List GroupedRow) = none := rfl
  rw [groupFold, h, hnil]

theorem mem_insertGrouped_key (e : DepositRecord) :
    ∀ (acc : List GroupedRow) (x : GroupedRow), x ∈ insertGrouped acc e →
      keyOf x.user x.asset = keyOf e.user e.asset ∨
        keyOf x.user x.asset ∈ acc.map (fun r => keyOf r.user r.asset)
  | [], x, hx => by
    simp only [insertGrouped, List.mem_singleton] at hx
    left
    rw [hx]
  | r :: rest, x, hx => by
    by_cases hr : keyOf r.user r.asset = keyOf e.user e.asset
    · rw [insertGrouped, if_pos hr] at hx
      rcases List.mem_cons.mp hx with h | h
      · left; rw [h]; exact hr
      · right; exact List.mem_map.mpr ⟨x, List.mem_cons_of_mem _ h, rfl⟩
    · rw [insertGrouped, if_neg hr] at hx
      rcases List.mem_cons.mp hx with h | h
      · right
        exact List.mem_map.mpr ⟨r, List.mem_cons_self _ _, by rw [h]⟩
      · rcases mem_insertGrouped_key e rest x h with h2 | h2
        · left; exact h2
        · right
          rcases List.mem_map.mp h2 with ⟨y, hy, hyx⟩
          exact List.mem_map.mpr ⟨y, List.mem_cons_of_mem _ hy, hyx⟩

theorem insertGrouped_pairwise (e : DepositRecord) :
    ∀ acc : List GroupedRow,
      acc.Pairwise (fun a b => keyOf a.user a.asset ≠ keyOf b.user b.asset) →
      (insertGrouped acc e).Pairwise
        (fun a b => keyOf a.user a.asset ≠ keyOf b.user b.asset)
  | [], _ => by simp [insertGrouped]
  | r :: rest, hpw => by
    rcases List.pairwise_cons.mp hpw with ⟨hr, hrest⟩
    by_cases hre : keyOf r.user r.asset = keyOf e.user e.asset
    · rw [insertGrouped, if_pos hre]
      refine List.pairwise_cons.mpr ⟨?_, hrest⟩
      intro x hx
      exact hr x hx
    · rw [insertGrouped, if_neg hre]
      refine List.pairwise_cons.mpr ⟨?_, insertGrouped_pairwise e rest hrest⟩
      intro x hx
      rcases mem_insertGrouped_key e rest x hx with h | h
      · rw [h]; exact hre
      · rcases List.mem_map.mp h with ⟨y, hy, hyx⟩
        rw [← hyx]
        exact hr y hy

theorem groupFold_pairwise (events : List DepositRecord) :
    (groupFold events).Pairwise
      (fun a b => keyOf a.user a.asset ≠ keyOf b.user b.asset) := by
  rw [groupFold]
  generalize hacc : ([] : List GroupedRow) = acc
  have hpw : acc.Pairwise (fun a b => keyOf a.user a.asset ≠ keyOf b.user b.asset) := by
    rw [← hacc]; exact List.Pairwise.nil
  clear hacc
  induction events generalizing acc with
  | nil => exact hpw
  | cons e rest ih =>
    rw [List.foldl_cons]
    exact ih _ (insertGrouped_pairwise e acc hpw)

theorem findRow_eq_of_mem (x : GroupedRow) :
    ∀ l : List GroupedRow,
      l.Pairwise (fun a b => keyOf a.user a.asset ≠ keyOf b.user b.asset) →
      x ∈ l → findRow (keyOf x.user x.asset) l = some x
  | [], _, hx => absurd hx (List.not_mem_nil x)
  | r :: rest, hpw, hx => by
    rcases List.pairwise_cons.mp hpw with ⟨hr, hrest⟩
    rcases List.mem_cons.mp hx with h | h
    · rw [findRow, List.find?_cons, h]
      simp
    · have hne : (keyOf r.user r.asset == keyOf x.user x.asset) = false := by
        simpa using hr x h
      rw [findRow, List.find?_cons, hne]
      exact findRow_eq_of_mem x rest hrest h

/-- Membership characterization of the grouped object: a row is present
exactly when some event carries its user and asset, and its amount is
the exact sum of the amounts of those events. -/
theorem mem_groupFold_iff (events : List DepositRecord)
    (hnd : ∀ e ∈ events, noDash e.user) (r : GroupedRow) :
    r ∈ groupFold events ↔
      ((∃ e ∈ events, e.user = r.user ∧ e.asset = r.asset) ∧
        r.amount = keySum (keyOf r.user r.asset) events) := by
  constructor
  · intro hmem
    have hfind := findRow_eq_of_mem r (groupFold events) (groupFold_pairwise events) hmem
    rw [findRow_fold] at hfind
    cases hf : firstWithKey (keyOf r.user r.asset) events with
    | none => rw [hf] at hfind; cases hfind
    | some e =>
      rw [hf] at hfind
      have he1 : e ∈ events := List.mem_of_find?_eq_some hf
      have he2 : keyOf e.user e.asset = keyOf r.user r.asset := by
        have := List.find?_some hf
        simpa using this
      have hrec := Option.some.inj hfind
      refine ⟨⟨e, he1, ?_, ?_⟩, ?_⟩
      · rw [← hrec]
      · rw [← hrec]
      · rw [← hrec]
        exact congrArg (fun k => keySum k events) he2.symm
  · rintro ⟨⟨e, he, heu, hea⟩, hamt⟩
    have hkey : keyOf e.user e.asset = keyOf r.user r.asset := by rw [heu, hea]
    have hex : (firstWithKey (keyOf r.user r.asset) events).isSome := by
      rw [firstWithKey, List.find?_isSome]
      exact ⟨e, he, by simpa using hkey⟩
    rcases Option.isSome_iff_exists.mp hex with ⟨e0, he0⟩
    have he0mem : e0 ∈ events := List.mem_of_find?_eq_some he0
    have he0key : keyOf e0.user e0.asset = keyOf r.user r.asset := by
      have := List.find?_some he0
      simpa using this
    have hpairs := (keyOf_inj (hnd e0 he0mem) (heu ▸ hnd e he)).mp
      (he0key.trans hkey.symm)
    have hrEq : GroupedRow.mk e0.user e0.asset (keySum (keyOf r.user r.asset) events) = r := by
      cases r
      simp only [GroupedRow.mk.injEq]
      refine ⟨?_, ?_, ?_⟩
      · exact hpairs.1.trans heu
      · exact hpairs.2.trans hea
      · simpa using hamt.symm
    have hfr : findRow (keyOf r.user r.asset) (groupFold events) = some r := by
      rw [findRow_fold, he0]
      exact congrArg some hrEq
    exact List.mem_of_find?_eq_some hfr

theorem groupFold_replicate_aux (e : DepositRecord) :
    ∀ (m : Nat) (r : GroupedRow), keyOf r.user r.asset = keyOf e.user e.asset →
      (List.replicate m e).foldl insertGrouped [r] =
        [{ r with amount := r.amount + m * e.amount }]
  | 0, r, _ => by simp
  | m + 1, r, hr => by
    rw [List.replicate_succ, List.foldl_cons]
    have hstep : insertGrouped [r] e = [{ r with amount := r.amount + e.amount }] := by
      simp [insertGrouped, hr]
    rw [hstep]
    have ih := groupFold_replicate_aux e m { r with amount := r.amount + e.amount }
      (by simpa using hr)
    rw [ih]
    have harith : r.amount + e.amount + m * e.amount = r.amount + (m + 1) * e.amount := by
      ring
    simp only [harith]

/-- C7: for permutations of the same multiset of decoded
DepositProcessed events the grouped output contains exactly the same
rows, and the grouped sums are exact integer arithmetic: n events of
amount 10^18 each group to exactly n * 10^18. -/
theorem c7_flat_sum_commutative_exact :
    (∀ (evts1 evts2 : List DepositRecord), evts1.Perm evts2 →
      (∀ e ∈ evts1, noDash e.user) →
      ∀ r : GroupedRow,
        r ∈ groupEventsByUserAndAsset evts1 ↔ r ∈ groupEventsByUserAndAsset evts2) ∧
    (∀ (n : Nat) (u a : String), 0 < n →
      groupEventsByUserAndAsset
          (List.replicate n { asset := a, user := u, amount := 10 ^ 18 }) =
        [{ user := u, asset := a, amount := n * 10 ^ 18 }]) := by
  constructor
  · intro evts1 evts2 hperm hnd1 r
    have hnd2 : ∀ e ∈ evts2, noDash e.user := fun e he =>
      hnd1 e (hperm.mem_iff.mpr he)
    have hm1 : r ∈ groupEventsByUserAndAsset evts1 ↔ r ∈ groupFold evts1 :=
      (List.perm_insertionSort rowLe (groupFold evts1)).mem_iff
    have hm2 : r ∈ groupEventsByUserAndAsset evts2 ↔ r ∈ groupFold evts2 :=
      (List.perm_insertionSort rowLe (groupFold evts2)).mem_iff
    rw [hm1, hm2, mem_groupFold_iff evts1 hnd1 r, mem_groupFold_iff evts2 hnd2 r]
    have hsum : keySum (keyOf r.user r.asset) evts1 =
        keySum (keyOf r.user r.asset) evts2 := by
      rw [keySum, keySum]
      exact ((hperm.filter _).map (·.amount)).sum_eq
    have hex : (∃ e ∈ evts1, e.user = r.user ∧ e.asset = r.asset) ↔
        (∃ e ∈ evts2, e.user = r.user ∧ e.asset = r.asset) := by
      constructor
      · rintro ⟨e, he, hp⟩; exact ⟨e, hperm.mem_iff.mp he, hp⟩
      · rintro ⟨e, he, hp⟩; exact ⟨e, hperm.mem_iff.mpr he, hp⟩
    rw [hsum, hex]
  · intro n u a hn
    obtain ⟨m, rfl⟩ : ∃ m, n = m + 1 := ⟨n - 1, by omega⟩
    rw [groupEventsByUserAndAsset, groupFold, List.replicate_succ, List.foldl_cons]
    have hstep : insertGrouped []
        { asset := a, user := u, amount := 10 ^ 18 } =
        [{ user := u, asset := a, amount := 10 ^ 18 }] := rfl
    rw [hstep, groupFold_replicate_aux _ m _ rfl]
    have harith : 10 ^ 18 + m * 10 ^ 18 = (m + 1) * 10 ^ 18 := by ring
    simp only [harith]
    rfl

/-- Witness for C7: a two-element swap preserves membership of a
concrete row, and three events of 10^18 sum to exactly 3 * 10^18. -/
theorem c7_witness :
    (GroupedRow.mk "0xa" "0xt" 10 ∈ groupEventsByUserAndAsset
      [{ asset := "0xs", user := "0xb", amount := 20 },
       { asset := "0xt", user := "0xa", amount := 10 }]) ∧
    groupEventsByUserAndAsset
        (List.replicate 3 { asset := "0xs", user := "0xu", amount := 10 ^ 18 }) =
      [{ user := "0xu", asset := "0xs", amount := 3 * 10 ^ 18 }] := by
  constructor
  · have h := c7_flat_sum_commutative_exact.1
      [{ asset := "0xt", user := "0xa", amount := 10 },
       { asset := "0xs", user := "0xb", amount := 20 }]
      [{ asset := "0xs", user := "0xb", amount := 20 },
       { asset := "0xt", user := "0xa", amount := 10 }]
      (List.Perm.swap _ _ _) (by decide) (GroupedRow.mk "0xa" "0xt" 10)
    exact h.mp (by decide)
  · exact c7_flat_sum_commutative_exact.2 3 "0xu" "0xs" (by decide)

/-- C8 amended: the grouped report rows are sorted by user and then by
asset under the default-locale localeCompare collation (base characters
first with case folded, lowercase before uppercase on ties), not under
byte-order comparison of the checksummed text. -/
theorem c8_rows_sorted_locale (events : List DepositRecord) :
    (groupEventsByUserAndAsset events).Sorted rowLe :=
  List.sorted_insertionSort rowLe (groupFold events)

/-- Byte-order (code-point lexicographic) comparison of strings: s is
no later than t. -/
def byteLe (s t : String) : Prop := listCompare (codesOf s) (codesOf t) ≠ .gt

instance : DecidableRel byteLe := fun s t => by
  unfold byteLe
  infer_instance

/-- C8 counterexample: with users 0xB and 0xa the grouped output puts
0xa first, although byte order puts 0xB (uppercase, code 66) before
0xa (lowercase, code 97); the rows are therefore not sorted by
case-sensitive byte-order comparison. -/
theorem c8_counterexample :
    (groupEventsByUserAndAsset
        [{ asset := "0xs", user := "0xB", amount := 1 },
         { asset := "0xs", user := "0xa", amount := 2 }]).map (fun r => r.user) =
      ["0xa", "0xB"] ∧ ¬ byteLe "0xa" "0xB" := by
  decide

/-! ### CSV building -/

theorem natDigitsGo_congr : ∀ (f1 f2 n : Nat), n < f1 → n < f2 →
    natDigitsGo f1 n = natDigitsGo f2 n
  | 0, _, _, h1, _ => absurd h1 (by omega)
  | _ + 1, 0, _, _, h2 => absurd h2 (by omega)
  | f1 + 1, f2 + 1, n, h1, h2 => by
    rw [natDigitsGo, natDigitsGo]
    by_cases h : n < 10
    · simp [h]
    · simp only [if_neg h]
      have hd : n / 10 < n := Nat.div_lt_self (by omega) (by omega)
      rw [natDigitsGo_congr f1 f2 (n / 10) (by omega) (by omega)]

theorem natDigits_unfold (n : Nat) :
    natDigits n = if n < 10 then [n] else natDigits (n / 10) ++ [n % 10] := by
  rw [natDigits, natDigitsGo]
  by_cases h : n < 10
  · simp [h]
  · simp only [if_neg h]
    have hd : n / 10 < n := Nat.div_lt_self (by omega) (by omega)
    rw [natDigits, natDigitsGo_congr n (n / 10 + 1) (n / 10) (by omega) (by omega)]

theorem natDigits_lt_ten (n : Nat) : ∀ d ∈ natDigits n, d < 10 := by
  induction n using Nat.strong_induction_on with
  | _ n ih =>
    rw [natDigits_unfold]
    by_cases h : n < 10
    · simp only [if_pos h, List.mem_singleton]
      rintro d rfl
      exact h
    · simp only [if_neg h, List.mem_append, List.mem_singleton]
      rintro d (hd | rfl)
      · exact ih (n / 10) (Nat.div_lt_self (by omega) (by omega)) d hd
      · omega

theorem digitsVal_natDigits (n : Nat) : digitsVal (natDigits n) = n := by
  induction n using Nat.strong_induction_on with
  | _ n ih =>
    rw [natDigits_unfold]
    by_cases h : n < 10
    · simp [h, digitsVal]
    · rw [if_neg h, digitsVal, List.foldl_append]
      have := ih (n / 10) (Nat.div_lt_self (by omega) (by omega))
      rw [digitsVal] at this
      rw [this]
      simp only [List.foldl_cons, List.foldl_nil]
      omega

theorem natDecimal_last_digit (n : Nat) :
    ∃ d, d < 10 ∧ (natDecimal n).data.getLast? = some (digitChar d) := by
  have hne := natDigits_ne_nil n
  cases hlast : (natDigits n).getLast? with
  | none => exact absurd (List.getLast?_eq_none_iff.mp hlast) hne
  | some d =>
    refine ⟨d, ?_, ?_⟩
    · exact natDigits_lt_ten n d (List.mem_of_getLast?_eq_some hlast)
    · show ((natDigits n).map digitChar).getLast? = some (digitChar d)
      rw [List.getLast?_map, hlast]
      rfl

theorem intDecimal_last_digit (i : Int) :
    ∃ d, d < 10 ∧ (intDecimal i).data.getLast? = some (digitChar d) := by
  rw [intDecimal]
  by_cases h : i < 0
  · rw [if_pos h]
    obtain ⟨d, hd, hlast⟩ := natDecimal_last_digit i.natAbs
    refine ⟨d, hd, ?_⟩
    rw [String.data_append, List.getLast?_append, hlast]
    rfl
  · rw [if_neg h]
    exact natDecimal_last_digit i.natAbs

/-- Model of JavaScript Array.prototype.join with a separator. -/
def joinSep (sep : String) : List String → String
  | [] => ""
  | [x] => x
  | x :: y :: rest => x ++ sep ++ joinSep sep (y :: rest)

theorem joinSep_lastChar (sep : String) (P : Char → Prop) :
    ∀ l : List String, l ≠ [] →
      (∀ x ∈ l, ∃ c, P c ∧ x.data.getLast? = some c) →
      ∃ c, P c ∧ (joinSep sep l).data.getLast? = some c
  | [], h, _ => absurd rfl h
  | [x], _, h => by
    simpa [joinSep] using h x (List.mem_singleton.mpr rfl)
  | x :: y :: rest, _, h => by
    rw [joinSep]
    obtain ⟨c, hc, hlast⟩ := joinSep_lastChar sep P (y :: rest) (by simp)
      (fun z hz => h z (List.mem_cons_of_mem _ hz))
    refine ⟨c, hc, ?_⟩
    rw [String.data_append, List.getLast?_append, hlast]
    rfl

theorem lastChar_append_right (s t : String) {c : Char}
    (h : t.data.getLast? = some c) : (s ++ t).data.getLast? = some c := by
  rw [String.data_append, List.getLast?_append, h]
  rfl

/-- One line of the flat deposit report. -/
def krEventRow (e : DepositRecord) : String :=
  e.asset ++ "," ++ e.user ++ "," ++ natDecimal e.amount

/-- The flat deposit CSV text: header plus newline plus the joined rows. -/
def krCsvContent (events : List DepositRecord) : String :=
  "asset,address,amount\n" ++ joinSep "\n" (events.map krEventRow)

/-- One line of the grouped deposit report. -/
def groupedRowLine (r : GroupedRow) : String :=
  r.user ++ "," ++ r.asset ++ "," ++ natDecimal r.amount

/-- The grouped deposit CSV text. -/
def groupedCsvContent (rows : List GroupedRow) : String :=
  "user,asset,total_amount\n" ++ joinSep "\n" (rows.map groupedRowLine)

/-- One line of the vault balance report. -/
def vaultBalanceLine (vault : String) (b : UserBalance) : String :=
  vault ++ "," ++ b.user_address ++ "," ++ intDecimal (netBal b)

/-- The vault balance CSV text. -/
def vaultCsvContent (vault : String) (events : List FormattedVaultEvent) : String :=
  "vault,user,amount\n" ++
    joinSep "\n" ((vaultBalanceRows events).map (vaultBalanceLine vault))

/-- C9 counterexample: for the empty collection the built flat deposit
CSV text is the header followed by a trailing newline, so the text does
end with a newline, contradicting the claim for the empty collection. -/
theorem c9_counterexample :
    (krCsvContent []).data.getLast? = some (Char.ofNat 10) ∧
    krCsvContent [] = "asset,address,amount" ++ "\n" := by
  constructor
  · decide
  · rfl

/-- C9 amended: every built CSV text is one header line, a newline, and
the rows joined by newlines; for a nonempty collection the text ends
with a decimal digit of the last row's integer field (hence no trailing
newline), while for the empty collection the text is the header line
followed by a trailing newline; integer fields are rendered as exact
decimal strings (the digit string evaluates back to the value). -/
theorem c9_csv_texts (events : List DepositRecord) (rows : List GroupedRow)
    (vault : String) (vevents : List FormattedVaultEvent) :
    (krCsvContent events =
      "asset,address,amount" ++ "\n" ++ joinSep "\n" (events.map krEventRow)) ∧
    (groupedCsvContent rows =
      "user,asset,total_amount" ++ "\n" ++ joinSep "\n" (rows.map groupedRowLine)) ∧
    (vaultCsvContent vault vevents =
      "vault,user,amount" ++ "\n" ++
        joinSep "\n" ((vaultBalanceRows vevents).map (vaultBalanceLine vault))) ∧
    (krCsvContent [] = "asset,address,amount" ++ "\n") ∧
    (events ≠ [] →
      ∃ d, d < 10 ∧ (krCsvContent events).data.getLast? = some (digitChar d)) ∧
    (rows ≠ [] →
      ∃ d, d < 10 ∧ (groupedCsvContent rows).data.getLast? = some (digitChar d)) ∧
    (vaultBalanceRows vevents ≠ [] →
      ∃ d, d < 10 ∧ (vaultCsvContent vault vevents).data.getLast? = some (digitChar d)) ∧
    (∀ n : Nat, digitsVal (natDigits n) = n) := by
  refine ⟨rfl, rfl, rfl, rfl, ?_, ?_, ?_, digitsVal_natDigits⟩
  · intro hne
    obtain ⟨c, ⟨d, hd, hcd⟩, hlast⟩ := joinSep_lastChar "\n"
      (fun c => ∃ d, d < 10 ∧ c = digitChar d) (events.map krEventRow)
      (by simpa using hne)
      (fun x hx => by
        obtain ⟨e, _, rfl⟩ := List.mem_map.mp hx
        obtain ⟨d, hd, hl⟩ := natDecimal_last_digit e.amount
        exact ⟨digitChar d, ⟨d, hd, rfl⟩, by
          rw [krEventRow]
          exact lastChar_append_right _ _ hl⟩)
    rw [hcd] at hlast
    refine ⟨d, hd, ?_⟩
    rw [krCsvContent]
    exact lastChar_append_right _ _ hlast
  · intro hne
    obtain ⟨c, ⟨d, hd, hcd⟩, hlast⟩ := joinSep_lastChar "\n"
      (fun c => ∃ d, d < 10 ∧ c = digitChar d) (rows.map groupedRowLine)
      (by simpa using hne)
      (fun x hx => by
        obtain ⟨r, _, rfl⟩ := List.mem_map.mp hx
        obtain ⟨d, hd, hl⟩ := natDecimal_last_digit r.amount
        exact ⟨digitChar d, ⟨d, hd, rfl⟩, by
          rw [groupedRowLine]
          exact lastChar_append_right _ _ hl⟩)
    rw [hcd] at hlast
    refine ⟨d, hd, ?_⟩
    rw [groupedCsvContent]
    exact lastChar_append_right _ _ hlast
  · intro hne
    obtain ⟨c, ⟨d, hd, hcd⟩, hlast⟩ := joinSep_lastChar "\n"
      (fun c => ∃ d, d < 10 ∧ c = digitChar d)
      ((vaultBalanceRows vevents).map (vaultBalanceLine vault))
      (by simpa using hne)
      (fun x hx => by
        obtain ⟨b, _, rfl⟩ := List.mem_map.mp hx
        obtain ⟨d, hd, hl⟩ := intDecimal_last_digit (netBal b)
        exact ⟨digitChar d, ⟨d, hd, rfl⟩, by
          rw [vaultBalanceLine]
          exact lastChar_append_right _ _ hl⟩)
    rw [hcd] at hlast
    refine ⟨d, hd, ?_⟩
    rw [vaultCsvContent]
    exact lastChar_append_right _ _ hlast

/-- Witness for C9 at concrete collections. -/
theorem c9_witness :
    (∃ d, d < 10 ∧
      (krCsvContent [{ asset := "0xA", user := "0xB", amount := 45 }]).data.getLast? =
        some (digitChar d)) ∧
    krCsvContent [] = "asset,address,amount" ++ "\n" := by
  have h := c9_csv_texts [{ asset := "0xA", user := "0xB", amount := 45 }] [] "" []
  exact ⟨h.2.2.2.2.1 (by decide), h.2.2.2.1⟩

/-! ### The vault run loop (main of fetch_vault_balance) -/

/-- Model of the main loop over the configured vault list.  The fetch
is abstracted as a pure function from a vault address to the raw logs
the chunked fetch returns for it.  The first component collects the
per-vault balance reports, the second the vaults actually fetched.  An
empty fetch result triggers the early return of main, ending the whole
loop with no report for that vault. -/
def runVaults (fetch : String → List RawLog) (cs : List Nat → String) :
    List String → List (String × List UserBalance) × List String
  | [] => ([], [])
  | v :: rest =>
    if fetch v = [] then ([], [v])
    else
      ((v, vaultBalanceRows (vaultFormatEvents cs (fetch v))) ::
          (runVaults fetch cs rest).1,
        v :: (runVaults fetch cs rest).2)

/-- C10: when the chunked fetch of some vault returns zero raw events,
the run returns immediately: no balance report is produced for that
vault and no subsequent vault is fetched, processed, or reported; the
vaults before it in the list are reported normally. -/
theorem c10_empty_fetch_aborts_run (fetch : String → List RawLog)
    (cs : List Nat → String) (v : String) (rest : List String)
    (hv : fetch v = []) :
    (runVaults fetch cs (v :: rest) = ([], [v])) ∧
    (∀ vs1 : List String, (∀ w ∈ vs1, fetch w ≠ []) →
      runVaults fetch cs (vs1 ++ v :: rest) =
        (vs1.map (fun w => (w, vaultBalanceRows (vaultFormatEvents cs (fetch w)))),
          vs1 ++ [v])) := by
  constructor
  · simp [runVaults, hv]
  · intro vs1
    induction vs1 with
    | nil =>
      intro _
      simp [runVaults, hv]
    | cons w ws ih =>
      intro hws
      have hw : fetch w ≠ [] := hws w (List.mem_cons_self _ _)
      have ih2 := ih (fun z hz => hws z (List.mem_cons_of_mem _ hz))
      simp only [List.cons_append, runVaults, if_neg hw, List.append_eq, ih2, List.map_cons]

/-- Witness for C10: with a fetch returning no logs at all, a two-vault
list yields no report and only the first vault is ever fetched. -/
theorem c10_witness :
    runVaults (fun _ => []) sampleCs ["0xv", "0xw"] = ([], ["0xv"]) :=
  (c10_empty_fetch_aborts_run (fun _ => []) sampleCs "0xv" ["0xw"] rfl).1

end PredepositsData
